import Mathlib

/-!
Shallow embedding of the alpaca language front end (lexer + parser) and
proofs about the properties its specification claims.

The Rust source is embedded as executable Lean definitions:

* `Lexer` / `Lexer.nextToken` embed `src/lexer.rs`; the lexer state holds
  the remaining character stream (`Peekable<Chars>`), the `position`
  counter (which counts *characters* advanced, incremented even when the
  stream is exhausted), and the `line`/`column` counters.
* `usize` subtraction in `create_token` (`self.position - len`) underflows
  when `len > position`; the embedding returns `none` in that case,
  modelling the Rust panic (debug builds abort; release builds produce a
  garbage wrap-around span).  Likewise `todo!()`, `unreachable!()` and
  `Option::unwrap` failures are modelled as `none`.
* `Parser` embeds `src/parser/mod.rs` (one-token lookahead in `peeked`),
  and the expression parser embeds `src/parser/expression.rs`.

Machine integers are modelled as `Nat`/`Int`; the `u32` line/column
counters and `usize` offsets cannot overflow upward on any input a proof
here touches, so only the underflowing subtractions are made explicit.
-/

/-- Half-open source range, from `src/span.rs`.  The Rust field `end` is
renamed `endPos` because `end` is a Lean keyword. -/
structure Span where
  start : Nat
  endPos : Nat
  deriving DecidableEq, Repr

/-- Pairing of an item with its source span (`Spanned<T> = (T, Span)`). -/
abbrev Spanned (α : Type) : Type := α × Span

/-- Every token in Alpaca, from `src/tokens.rs`. -/
inductive TokenKind where
  | OpenParen | CloseParen | OpenBracket | CloseBracket | Comma | Dot | Colon | Arrow
  | Equal | EqualEqual | Bang | BangEqual | Greater | GreaterEqual | Less | LessEqual
  | Plus | Minus | Star | Slash
  | String (s : String)
  | Integer (s : String)
  | Ident (s : String)
  | And | Do | Else | End | False | For | Fun | If | Let | Or | Return | True | Type | While
  | Error (msg : String)
  | EoF
  deriving DecidableEq, Repr

/-- Keyword lookup `get_keyword` from `src/lexer.rs`. -/
def getKeyword (name : String) : TokenKind :=
  match name with
  | "and" => .And
  | "do" => .Do
  | "else" => .Else
  | "end" => .End
  | "false" => .False
  | "for" => .For
  | "fun" => .Fun
  | "if" => .If
  | "let" => .Let
  | "or" => .Or
  | "return" => .Return
  | "true" => .True
  | "type" => .Type
  | "while" => .While
  | _ => .Ident name

/-- Number of bytes in the UTF-8 encoding of a character, mirroring Rust
`char::len_utf8` (this is what `String::len` sums over). -/
def charUtf8Size (c : Char) : Nat :=
  if c.toNat < 0x80 then 1
  else if c.toNat < 0x800 then 2
  else if c.toNat < 0x10000 then 3
  else 4

/-- Byte length of a character list, mirroring Rust `String::len`. -/
def utf8Len (l : List Char) : Nat :=
  match l with
  | [] => 0
  | c :: rest => charUtf8Size c + utf8Len rest

/-- UTF-8 encoding of one character as bytes. -/
def utf8EncodeChar (c : Char) : List UInt8 :=
  let n := c.toNat
  if n < 0x80 then [UInt8.ofNat n]
  else if n < 0x800 then
    [UInt8.ofNat (0xC0 ||| (n >>> 6)), UInt8.ofNat (0x80 ||| (n &&& 0x3F))]
  else if n < 0x10000 then
    [UInt8.ofNat (0xE0 ||| (n >>> 12)), UInt8.ofNat (0x80 ||| ((n >>> 6) &&& 0x3F)),
     UInt8.ofNat (0x80 ||| (n &&& 0x3F))]
  else
    [UInt8.ofNat (0xF0 ||| (n >>> 18)), UInt8.ofNat (0x80 ||| ((n >>> 12) &&& 0x3F)),
     UInt8.ofNat (0x80 ||| ((n >>> 6) &&& 0x3F)), UInt8.ofNat (0x80 ||| (n &&& 0x3F))]

/-- UTF-8 encoding of a character list as a byte list. -/
def utf8Bytes (l : List Char) : List UInt8 :=
  match l with
  | [] => []
  | c :: rest => utf8EncodeChar c ++ utf8Bytes rest

/-- Byte-range slice `bytes[a..b]` of a byte list (spans are byte-offset
ranges per the specification's data model). -/
def byteSlice (bytes : List UInt8) (a b : Nat) : List UInt8 :=
  (bytes.drop a).take (b - a)

/-- True for characters in the ASCII range. -/
def asciiChar (c : Char) : Bool := c.toNat < 128

/-- Models Rust `char::is_numeric` on the character domain exercised in
this development: on the ASCII range `is_numeric` is exactly the decimal
digits, and the non-ASCII characters appearing here (such as U+00E9) are
not numeric. -/
def isNumeric (c : Char) : Bool := c.isDigit

/-- Models `UnicodeXID::is_xid_start` from the `unicode_xid` crate on the
character domain exercised here: ASCII letters are XID_Start, and of the
non-ASCII characters used in this development U+00E9 is XID_Start. -/
def isXidStart (c : Char) : Bool := c.isAlpha || c = 'é'

/-- Models `UnicodeXID::is_xid_continue` on the same character domain:
ASCII letters, digits and underscore, plus U+00E9. -/
def isXidContinue (c : Char) : Bool := c.isAlpha || c.isDigit || c = '_' || c = 'é'

/-- Error message produced by `lex_string` at end of input. -/
def untermMsg : String :=
  "Unterminated string literal. Expected closing quote, instead found EoF (End of File)"

/-- Lexer state from `src/lexer.rs`: the remaining character stream,
the `position` counter (characters advanced so far, incremented by
`advance` even when the stream is exhausted), and line/column counters. -/
structure Lexer where
  source : List Char
  position : Nat
  line : Nat
  column : Nat
  deriving DecidableEq, Repr

/-- Constructor `Lexer::new`. -/
def Lexer.new (source : String) : Lexer :=
  { source := source.data, position := 0, line := 1, column := 0 }

/-- Models `create_token`: the span is `self.position - len .. self.position`
in `usize` arithmetic, so when `len > position` the subtraction underflows;
`none` models that underflow (a panic in debug builds). -/
def createToken (pos : Nat) (kind : TokenKind) (len : Nat) : Option (Spanned TokenKind) :=
  if len ≤ pos then some (kind, ⟨pos - len, pos⟩) else none

/-- Packages a freshly created token with the lexer state that produced it. -/
def emitToken (src : List Char) (pos line col : Nat) (kind : TokenKind) (len : Nat) :
    Option (Spanned TokenKind × Lexer) :=
  (createToken pos kind len).map fun t => (t, ⟨src, pos, line, col⟩)

/-- Loop of `lex_string`: consume characters into `value` until an
unescaped quote or end of input; on end of input emit the unterminated
error token, otherwise consume the closing quote and emit the string
token.  `pos` is the lexer position after the characters consumed so far. -/
def lexStringAux (src : List Char) (pos line col : Nat) (value : List Char) :
    Option (Spanned TokenKind × Lexer) :=
  match src with
  | [] => emitToken [] pos line col (.Error untermMsg) (utf8Len value)
  | c :: rest =>
      if c = '"' then
        emitToken rest (pos + 1) line col (.String (String.mk value)) (utf8Len value)
      else
        lexStringAux rest (pos + 1) line col (value ++ [c])

/-- Loop of `lex_number`: consume a maximal run of numeric characters. -/
def lexNumberAux (src : List Char) (pos line col : Nat) (value : List Char) :
    Option (Spanned TokenKind × Lexer) :=
  match src with
  | [] => emitToken [] pos line col (.Integer (String.mk value)) (utf8Len value)
  | c :: rest =>
      if isNumeric c then
        lexNumberAux rest (pos + 1) line col (value ++ [c])
      else
        emitToken (c :: rest) pos line col (.Integer (String.mk value)) (utf8Len value)

/-- Loop of `lex_identifier`: consume a maximal run of identifier-continue
characters, then classify the text through the keyword table. -/
def lexIdentifierAux (src : List Char) (pos line col : Nat) (value : List Char) :
    Option (Spanned TokenKind × Lexer) :=
  match src with
  | [] => emitToken [] pos line col (getKeyword (String.mk value)) (utf8Len value)
  | c :: rest =>
      if isXidContinue c then
        lexIdentifierAux rest (pos + 1) line col (value ++ [c])
      else
        emitToken (c :: rest) pos line col (getKeyword (String.mk value)) (utf8Len value)

/-- Models `Lexer::consume`: peek the next character and advance past it
exactly when it equals the expected one, reporting whether it matched. -/
def consumeChar (expected : Char) (src : List Char) : Bool × List Char :=
  match src with
  | c :: rest => if c = expected then (true, rest) else (false, c :: rest)
  | [] => (false, [])

/-- Body of `next_token`, with the lexer state split into components so the
whitespace recursion is structural on the character stream.  The first
`advance` increments `position` even when the stream is exhausted, so the
end-of-input token is created at `pos + 1`.  Two-character operators use
`consumeChar` (the `Lexer::consume` method). -/
def nextTokenAux (src : List Char) (pos line col : Nat) :
    Option (Spanned TokenKind × Lexer) :=
  match src with
  | [] => emitToken [] (pos + 1) line col .EoF 0
  | c :: rest =>
      if c = '(' then emitToken rest (pos + 1) line col .OpenParen 1
      else if c = ')' then emitToken rest (pos + 1) line col .CloseParen 1
      else if c = '[' then emitToken rest (pos + 1) line col .OpenBracket 1
      else if c = ']' then emitToken rest (pos + 1) line col .CloseBracket 1
      else if c = ',' then emitToken rest (pos + 1) line col .Comma 1
      else if c = ':' then emitToken rest (pos + 1) line col .Colon 1
      else if c = '=' then
        let r := consumeChar '=' rest
        if r.1 then emitToken r.2 (pos + 2) line col .EqualEqual 2
        else emitToken r.2 (pos + 1) line col .Equal 1
      else if c = '!' then
        let r := consumeChar '=' rest
        if r.1 then emitToken r.2 (pos + 2) line col .BangEqual 2
        else emitToken r.2 (pos + 1) line col .Bang 1
      else if c = '>' then
        let r := consumeChar '=' rest
        if r.1 then emitToken r.2 (pos + 2) line col .GreaterEqual 2
        else emitToken r.2 (pos + 1) line col .Greater 1
      else if c = '<' then
        let r := consumeChar '=' rest
        if r.1 then emitToken r.2 (pos + 2) line col .LessEqual 2
        else emitToken r.2 (pos + 1) line col .Less 1
      else if c = '+' then emitToken rest (pos + 1) line col .Plus 1
      else if c = '*' then emitToken rest (pos + 1) line col .Star 1
      else if c = '/' then emitToken rest (pos + 1) line col .Slash 1
      else if c = '-' then
        let r := consumeChar '>' rest
        if r.1 then emitToken r.2 (pos + 2) line col .Arrow 2
        else emitToken r.2 (pos + 1) line col .Minus 1
      else if c = '"' then lexStringAux rest (pos + 1) line col []
      else if isNumeric c then lexNumberAux rest (pos + 1) line col [c]
      else if isXidStart c || c = '_' then lexIdentifierAux rest (pos + 1) line col [c]
      else if c = '\n' then nextTokenAux rest (pos + 1) (line + 1) 0
      else if c.isWhitespace then nextTokenAux rest (pos + 1) line col
      else emitToken rest (pos + 1) line col (.Error ("Unknown character ".push c)) 1

/-- Method `next_token` on the lexer state. -/
def Lexer.nextToken (l : Lexer) : Option (Spanned TokenKind × Lexer) :=
  nextTokenAux l.source l.position l.line l.column

/-- Token stream of a lexer: repeatedly call `next_token` until the first
end-of-input token (inclusive).  Structured with explicit fuel so that it
is executable; every non-`EoF` token consumes at least one source
character, so `source.length + 1` fuel always suffices from a fresh lexer. -/
def tokensAux : Nat → Lexer → Option (List (Spanned TokenKind))
  | 0, _ => none
  | fuel + 1, l =>
      l.nextToken.bind fun (t, l2) =>
        if t.1 = .EoF then some [t]
        else (tokensAux fuel l2).map (t :: ·)

/-- All tokens produced by the tokenizer on a source string, up to and
including the first end-of-input token. -/
def tokenize (s : String) : Option (List (Spanned TokenKind)) :=
  tokensAux (s.data.length + 1) (Lexer.new s)

/-- Textual lexeme of the token kinds whose source text is determined by
the kind itself (punctuation, operators, keywords, and the payload-carrying
integer and identifier tokens).  String and error tokens are handled
separately by `spanOk`; `EoF` consumes no text. -/
def tokenText : TokenKind → String
  | .OpenParen => "("
  | .CloseParen => ")"
  | .OpenBracket => "["
  | .CloseBracket => "]"
  | .Comma => ","
  | .Dot => "."
  | .Colon => ":"
  | .Arrow => "->"
  | .Equal => "="
  | .EqualEqual => "=="
  | .Bang => "!"
  | .BangEqual => "!="
  | .Greater => ">"
  | .GreaterEqual => ">="
  | .Less => "<"
  | .LessEqual => "<="
  | .Plus => "+"
  | .Minus => "-"
  | .Star => "*"
  | .Slash => "/"
  | .Integer s => s
  | .Ident s => s
  | .And => "and"
  | .Do => "do"
  | .Else => "else"
  | .End => "end"
  | .False => "false"
  | .For => "for"
  | .Fun => "fun"
  | .If => "if"
  | .Let => "let"
  | .Or => "or"
  | .Return => "return"
  | .True => "true"
  | .Type => "type"
  | .While => "while"
  | .String _ => ""
  | .Error _ => ""
  | .EoF => ""

/-- Span correctness of one produced token against the source text, in
byte offsets.  For ordinary tokens the byte slice at the span is exactly
the lexeme.  For terminated string literals the code consumes the closing
quote before computing the span, so the span sits one byte to the right of
the content: shifting it back by one recovers the content.  For the
unterminated-string error token the span covers exactly the consumed
content: it starts right after an opening quote, runs to the end of the
source, and contains no quote.  For an unknown-character error token the
slice is the offending character named in the message. -/
def spanOk (src : List Char) (tk : Spanned TokenKind) : Prop :=
  let bytes := utf8Bytes src
  match tk.1 with
  | .String v =>
      1 ≤ tk.2.start ∧
        byteSlice bytes (tk.2.start - 1) (tk.2.endPos - 1) = utf8Bytes v.data
  | .Error m =>
      if m = untermMsg then
        1 ≤ tk.2.start ∧ bytes.get? (tk.2.start - 1) = some 34 ∧
          tk.2.endPos = bytes.length ∧
          ∀ b ∈ byteSlice bytes tk.2.start tk.2.endPos, b ≠ (34 : UInt8)
      else
        byteSlice bytes tk.2.start tk.2.endPos = utf8Bytes (m.data.drop 18) ∧
          m.data.take 18 = "Unknown character ".data
  | k => byteSlice bytes tk.2.start tk.2.endPos = utf8Bytes (tokenText k).data

/-- Kinds of parser errors, from `src/parser/mod.rs`. -/
inductive ErrorKind where
  | Expected (expected : List TokenKind) (found : TokenKind) (span : Span)
  | Unclosed (kind : TokenKind) (span : Span)
  | Unexpected (kind : TokenKind) (span : Span)
  | Other (msg : String) (span : Span)
  deriving DecidableEq, Repr

/-- Parser error with an optional help message, from `src/parser/mod.rs`. -/
structure ParserError where
  kind : ErrorKind
  help : Option String
  deriving DecidableEq, Repr

/-- Builder `ParserError::with_help`. -/
def ParserError.withHelp (e : ParserError) (help : String) : ParserError :=
  { kind := e.kind, help := some help }

/-- Parser state from `src/parser/mod.rs`: the source and display name
(kept for fidelity; the embedded methods do not read them), the lexer, the
span of the most recently advanced-past token, and the one-token
lookahead buffer. -/
structure Parser where
  source : String
  lexer : Lexer
  filename : String
  currentTokenSpan : Span
  peeked : Option (Spanned TokenKind)
  deriving DecidableEq, Repr

/-- Constructor `Parser::new`. -/
def Parser.new (source filename : String) : Parser :=
  { source := source, lexer := Lexer.new source, filename := filename,
    currentTokenSpan := ⟨0, 0⟩, peeked := none }

/-- Method `Parser::advance`: take the peeked token if present, otherwise
pull the next token from the lexer; record its span.  `none` propagates a
lexer panic (span underflow). -/
def Parser.advance (p : Parser) : Option (Spanned TokenKind × Parser) :=
  match p.peeked with
  | some t => some (t, { p with peeked := none, currentTokenSpan := t.2 })
  | none =>
      p.lexer.nextToken.map fun (t, lx) =>
        (t, { p with lexer := lx, currentTokenSpan := t.2 })

/-- Method `Parser::peek`: fill the lookahead buffer if empty and return
the buffered token. -/
def Parser.peek (p : Parser) : Option (Spanned TokenKind × Parser) :=
  match p.peeked with
  | some t => some (t, p)
  | none => p.advance.map fun (t, p2) => (t, { p2 with peeked := some t })

/-- Method `Parser::at_end`: whether the next token is end-of-input. -/
def Parser.atEnd (p : Parser) : Option (Bool × Parser) :=
  p.peek.map fun (t, p2) => (t.1 = .EoF, p2)

/-- Method `Parser::consume`: advance past the next token when it equals
the expected kind, otherwise return an `Expected` error without advancing. -/
def Parser.consume (p : Parser) (expected : TokenKind) :
    Option (Except ParserError Unit × Parser) :=
  p.peek.bind fun (token, p1) =>
    if token.1 = expected then
      p1.advance.map fun (_, p2) => (Except.ok (), p2)
    else
      some (Except.error ⟨.Expected [expected] token.1 token.2, none⟩, p1)

/-- Token kinds on which `synchronize` stops (statement starters). -/
def isSyncToken : TokenKind → Bool
  | .Fun | .Let | .Return | .If | .For | .While => true
  | _ => false

/-- Loop of `Parser::synchronize` with explicit fuel: discard tokens until
the next token is a statement-starting keyword or end-of-input. -/
def Parser.synchronizeFuel : Nat → Parser → Option Parser
  | 0, _ => none
  | fuel + 1, p =>
      p.peek.bind fun (t, p1) =>
        if t.1 = .EoF then some p1
        else if isSyncToken t.1 then some p1
        else p1.advance.bind fun (_, p2) => Parser.synchronizeFuel fuel p2

/-- Method `Parser::synchronize`.  Every loop iteration other than the
first consumes at least one source character, so `source.length + 2` fuel
always suffices. -/
def Parser.synchronize (p : Parser) : Option Parser :=
  Parser.synchronizeFuel (p.lexer.source.length + 2) p

/-- Token stream as seen by the parser (through the lookahead buffer), up
to and including the first end-of-input token, with explicit fuel. -/
def Parser.tokenListFuel : Nat → Parser → Option (List (Spanned TokenKind))
  | 0, _ => none
  | fuel + 1, p =>
      p.advance.bind fun (t, p2) =>
        if t.1 = .EoF then some [t]
        else (Parser.tokenListFuel fuel p2).map (t :: ·)

/-- Remaining token stream of a parser state. -/
def Parser.tokenList (p : Parser) : Option (List (Spanned TokenKind)) :=
  Parser.tokenListFuel (p.lexer.source.length + 2) p

/-- Kinds of literals, from `src/parser/ast.rs`.  Rust stores the integer
as `i64`; the conversion in `parseI64` enforces the `i64` range, so the
stored value is modelled as `Int`. -/
inductive LiteralKind where
  | Int (v : Int)
  | Bool (b : Bool)
  | String (s : String)
  deriving DecidableEq, Repr

/-- Type annotations, from `src/parser/ast.rs`. -/
inductive Annotation where
  | Single (s : String)
  | Tuple (items : List Annotation)
  | Array (items : List Annotation)
  | Function (argTypes : List Annotation) (retType : Annotation)

mutual
/-- Expressions, from `src/parser/ast.rs`. -/
inductive Expr where
  | Literal (k : LiteralKind)
  | Ident (s : String)
  | Tuple (items : List (Expr × Span))
  | Array (items : List (Expr × Span))
  | Unary (op : TokenKind) (rhs : Expr × Span)
  | Binary (op : TokenKind) (lhs rhs : Expr × Span)
  | Call (callee : Expr × Span) (args : List (Expr × Span))
  | Assignment (name value : Expr × Span)
  | Block (stmts : List (Statement × Span))
  | If (condition body : Expr × Span) (elseBranch : Option (Expr × Span))
  | For (var iter body : Expr × Span)
  | While (cond body : Expr × Span)

/-- Statements, from `src/parser/ast.rs`. -/
inductive Statement where
  | Expression (e : Expr × Span)
  | Return (e : Expr × Span)
  | Let (name value : Expr × Span)
  | Function (name : Expr × Span) (pub : Bool) (params : List String)
      (annotations : List ( Annotation × Span))
      ( returnAnnotation : Option ( Annotation × Span)) (body : Expr × Span)
end

/-- Models `str::parse::<i64>` on the digit strings the lexer produces:
the parse succeeds exactly when the text is a nonempty digit run whose
value fits in a 64-bit signed integer. -/
def parseI64 (s : String) : Option Int :=
  if s.data ≠ [] ∧ s.data.all Char.isDigit then
    let n := s.data.foldl (fun acc c => acc * 10 + (c.toNat - 48)) 0
    if n ≤ 9223372036854775807 then some (Int.ofNat n) else none
  else none

/-- Result type of the expression parser: `none` models a panic
(`todo!()`, `unreachable!()`, a failed `unwrap`, or a lexer span
underflow); `Except.error` is an ordinary `ParserError` result. -/
abbrev PRes := Option (Except ParserError (Expr × Span) × Parser)

/-- Method `parse_literal` from `src/parser/expression.rs`.  The Rust code
converts the integer text with `i.parse().unwrap()`; the failed unwrap on
an out-of-range literal is modelled as `none` (a panic), and the
`unreachable!()` arm likewise. -/
def parseLiteral (current : Spanned TokenKind) :
    Option (Except ParserError (Expr × Span)) :=
  match current.1 with
  | .Integer i => (parseI64 i).map fun v => .ok (Expr.Literal (.Int v), current.2)
  | .String s => some (.ok (Expr.Literal (.String s), current.2))
  | .True => some (.ok (Expr.Literal (.Bool true), current.2))
  | .False => some (.ok (Expr.Literal (.Bool false), current.2))
  | _ => none

/-- Modelled from the spec: the infix dispatch table of section 4.2 (the
infix loop of `parse_expression` is `todo!()` in the source).  Maps an
operator token to its precedence tier: assignment 1, `or` 2, `and` 3,
equality 4, relational 5, additive 6, multiplicative 7, call 9. -/
def infixPrecedence : TokenKind → Option Nat
  | .Equal => some 1
  | .Or => some 2
  | .And => some 3
  | .EqualEqual => some 4
  | .BangEqual => some 4
  | .Greater => some 5
  | .GreaterEqual => some 5
  | .Less => some 5
  | .LessEqual => some 5
  | .Plus => some 6
  | .Minus => some 6
  | .Star => some 7
  | .Slash => some 7
  | .OpenParen => some 9
  | _ => none

mutual

/-- Method `parse_expression` from `src/parser/expression.rs`: advance,
apply the prefix rule, then run the infix loop.  The infix loop is
`todo!()` in the source; `infixLoop` models it from the spec (section
4.2).  The `fuel` argument only makes the mutual recursion structural;
every claim below is settled at a fuel large enough that it is never
exhausted. -/
def parseExpression : Nat → Parser → Nat → PRes
  | 0, _, _ => none
  | fuel + 1, p, precedence =>
      p.advance.bind fun (token, p) =>
        (prefixRule fuel p token).bind fun (r, p) =>
          match r with
          | .error e => some (.error e, p)
          | .ok lhs => infixLoop fuel p precedence lhs

/-- Method `prefix_rule` from `src/parser/expression.rs`.  The catch-all
arm is `todo!()` in the source; it is modelled from the spec (section
4.2): any other token yields a parser error naming the unexpected token. -/
def prefixRule : Nat → Parser → Spanned TokenKind → PRes
  | 0, _, _ => none
  | fuel + 1, p, token =>
      match token.1 with
      | .Integer s => (parseLiteral (.Integer s, token.2)).map fun r => (r, p)
      | .String s => (parseLiteral (.String s, token.2)).map fun r => (r, p)
      | .True => (parseLiteral (.True, token.2)).map fun r => (r, p)
      | .False => (parseLiteral (.False, token.2)).map fun r => (r, p)
      | .Ident s => some (.ok (Expr.Ident s, token.2), p)
      | .OpenParen => parseGrouping fuel p
      | .Minus => parseUnary fuel p token
      | .Bang => parseUnary fuel p token
      | .OpenBracket => parseArray fuel p token
      | .Do => parseBlock fuel p token
      | k => some (.error ⟨.Unexpected k token.2, none⟩, p)

/-- Modelled from the spec: the Pratt infix loop of `parse_expression`
(`todo!()` in the source), per section 4.2.  Peek one token; when it has
an infix rule whose precedence is at least the minimum, consume and apply
it (assignment is right-associative, calls collect arguments, binary
operators parse their right operand one level higher), else stop. -/
def infixLoop : Nat → Parser → Nat → (Expr × Span) → PRes
  | 0, _, _, _ => none
  | fuel + 1, p, precedence, lhs =>
      p.peek.bind fun (t, p) =>
        match infixPrecedence t.1 with
        | none => some (.ok lhs, p)
        | some prec =>
            if prec < precedence then some (.ok lhs, p)
            else if t.1 = .Equal then
              p.advance.bind fun (_, p) =>
                (parseExpression fuel p prec).bind fun (r, p) =>
                  match r with
                  | .error e => some (.error e, p)
                  | .ok rhs =>
                      infixLoop fuel p precedence
                        (Expr.Assignment lhs rhs, ⟨lhs.2.start, rhs.2.endPos⟩)
            else if t.1 = .OpenParen then
              p.advance.bind fun (_, p) =>
                (parseCallArgs fuel p []).bind fun (r, p) =>
                  match r with
                  | .error e => some (.error e, p)
                  | .ok args =>
                      infixLoop fuel p precedence
                        (Expr.Call lhs args, ⟨lhs.2.start, p.currentTokenSpan.endPos⟩)
            else
              p.advance.bind fun (op, p) =>
                (parseExpression fuel p (prec + 1)).bind fun (r, p) =>
                  match r with
                  | .error e => some (.error e, p)
                  | .ok rhs =>
                      infixLoop fuel p precedence
                        (Expr.Binary op.1 lhs rhs, ⟨lhs.2.start, rhs.2.endPos⟩)

/-- Modelled from the spec: the call argument list of section 4.2 tier 9,
comma-separated and possibly empty, terminated by a closing parenthesis. -/
def parseCallArgs : Nat → Parser → List (Expr × Span) →
    Option (Except ParserError (List (Expr × Span)) × Parser)
  | 0, _, _ => none
  | fuel + 1, p, args =>
      p.peek.bind fun (t, p) =>
        if t.1 = .CloseParen then
          (p.consume .CloseParen).bind fun (c, p) =>
            match c with
            | .error e => some (.error e, p)
            | .ok _ => some (.ok args, p)
        else
          (parseExpression fuel p 1).bind fun (r, p) =>
            match r with
            | .error e => some (.error e, p)
            | .ok item =>
                p.peek.bind fun (t2, p) =>
                  if t2.1 ≠ .CloseParen then
                    (p.consume .Comma).bind fun (c, p) =>
                      match c with
                      | .error e => some (.error e, p)
                      | .ok _ => parseCallArgs fuel p (args ++ [item])
                  else parseCallArgs fuel p (args ++ [item])

/-- Method `parse_grouping` from `src/parser/expression.rs`: parse the
inner expression at the lowest precedence; if a comma follows, re-enter as
tuple parsing, otherwise require a closing parenthesis (the help-message
typo is the source's). -/
def parseGrouping : Nat → Parser → PRes
  | 0, _ => none
  | fuel + 1, p =>
      (parseExpression fuel p 1).bind fun (r, p) =>
        match r with
        | .error e => some (.error e, p)
        | .ok expr =>
            p.peek.bind fun (t, p) =>
              if t.1 = .Comma then parseTuple fuel p expr
              else
                (p.consume .CloseParen).bind fun (c, p) =>
                  match c with
                  | .error e =>
                      some (.error (e.withHelp "Expeted to find a closing parenthesis."), p)
                  | .ok _ => some (.ok expr, p)

/-- Loop of `parse_tuple`: while the next token is not a closing
parenthesis, consume a comma (the inner guard is the source's, and is
always true because the outer check just failed) and parse the next item. -/
def parseTupleLoop : Nat → Parser → List (Expr × Span) →
    Option (Except ParserError (List (Expr × Span)) × Parser)
  | 0, _, _ => none
  | fuel + 1, p, items =>
      p.peek.bind fun (t, p) =>
        if t.1 = .CloseParen then some (.ok items, p)
        else
          (if t.1 ≠ .CloseParen then
            (p.consume .Comma).map fun (c, p) =>
              (c.mapError fun e => e.withHelp "Did you forget a comma?", p)
          else some (.ok (), p)).bind fun (c, p) =>
            match c with
            | .error e => some (.error e, p)
            | .ok _ =>
                (parseExpression fuel p 1).bind fun (r, p) =>
                  match r with
                  | .error e => some (.error e, p)
                  | .ok item => parseTupleLoop fuel p (items ++ [item])

/-- Method `parse_tuple` from `src/parser/expression.rs`.  After the loop
the closing parenthesis is consumed and the span starts at
`start - 1` in `usize` arithmetic: `none` models the underflow when the
first item starts at offset 0. -/
def parseTuple : Nat → Parser → (Expr × Span) → PRes
  | 0, _, _ => none
  | fuel + 1, p, first =>
      let start := first.2.start
      (parseTupleLoop fuel p [first]).bind fun (r, p) =>
        match r with
        | .error e => some (.error e, p)
        | .ok items =>
            (p.consume .CloseParen).bind fun (c, p) =>
              match c with
              | .error e =>
                  some (.error (e.withHelp "Expeted to find a closing parenthesis."), p)
              | .ok _ =>
                  if 1 ≤ start then
                    some (.ok (Expr.Tuple items, ⟨start - 1, p.currentTokenSpan.endPos⟩), p)
                  else none

/-- Method `parse_unary` from `src/parser/expression.rs`: parse the
operand at precedence 8 and wrap it. -/
def parseUnary : Nat → Parser → Spanned TokenKind → PRes
  | 0, _, _ => none
  | fuel + 1, p, current =>
      (parseExpression fuel p 8).bind fun (r, p) =>
        match r with
        | .error e => some (.error e, p)
        | .ok expr =>
            some (.ok (Expr.Unary current.1 expr, ⟨current.2.start, expr.2.endPos⟩), p)

/-- Loop of `parse_array`: while the next token is not a closing bracket,
parse an item and consume a comma unless the closing bracket follows. -/
def parseArrayLoop : Nat → Parser → List (Expr × Span) →
    Option (Except ParserError (List (Expr × Span)) × Parser)
  | 0, _, _ => none
  | fuel + 1, p, items =>
      p.peek.bind fun (t, p) =>
        if t.1 = .CloseBracket then some (.ok items, p)
        else
          (parseExpression fuel p 1).bind fun (r, p) =>
            match r with
            | .error e => some (.error e, p)
            | .ok item =>
                p.peek.bind fun (t2, p) =>
                  if t2.1 ≠ .CloseBracket then
                    (p.consume .Comma).bind fun (c, p) =>
                      match c with
                      | .error e =>
                          some (.error (e.withHelp "Did you forget a comma?"), p)
                      | .ok _ => parseArrayLoop fuel p (items ++ [item])
                  else parseArrayLoop fuel p (items ++ [item])

/-- Method `parse_array` from `src/parser/expression.rs`. -/
def parseArray : Nat → Parser → Spanned TokenKind → PRes
  | 0, _, _ => none
  | fuel + 1, p, current =>
      (parseArrayLoop fuel p []).bind fun (r, p) =>
        match r with
        | .error e => some (.error e, p)
        | .ok items =>
            (p.consume .CloseBracket).bind fun (c, p) =>
              match c with
              | .error e =>
                  some (.error (e.withHelp "Expeted to find a closing bracket."), p)
              | .ok _ =>
                  some (.ok (Expr.Array items, ⟨current.2.start, p.currentTokenSpan.endPos⟩), p)

/-- Method `parse_block` from `src/parser/expression.rs`.  The statement
inside the loop is `todo!()` in the source, so entering the loop body
panics (`none`); an immediate `end` or end-of-input skips the loop and
behaves as written. -/
def parseBlock : Nat → Parser → Spanned TokenKind → PRes
  | 0, _, _ => none
  | _fuel + 1, p, current =>
      p.peek.bind fun (t, p) =>
        if t.1 ≠ .EoF ∧ t.1 ≠ .End then none
        else
          (p.consume .End).bind fun (c, p) =>
            match c with
            | .error e => some (.error (e.withHelp "Did you forget an `end`?"), p)
            | .ok _ =>
                some (.ok (Expr.Block [], ⟨current.2.start, p.currentTokenSpan.endPos⟩), p)

end

/-- Method `parse_statement` from `src/parser/statement.rs`: the body
after the peek is `todo!()`, modelled as a panic. -/
def Parser.parseStatement (p : Parser) :
    Option (Except ParserError (Statement × Span) × Parser) :=
  p.peek.bind fun _ => none

/-- Runs the expression parser on a source string from a fresh parser at
the lowest precedence, with ample fuel, returning the result without the
final parser state. -/
def parseExpr (s : String) : Option (Except ParserError (Expr × Span)) :=
  (parseExpression 64 (Parser.new s "test") 1).map Prod.fst

/-- Anatomy of a successful `peek`: the returned state has the returned
token buffered, peeking it again is a no-op, and advancing from either
state pops exactly that token. -/
theorem peek_spec (p : Parser) (t : Spanned TokenKind) (p1 : Parser)
    (h : p.peek = some (t, p1)) :
    p1.peeked = some t ∧ p1.peek = some (t, p1) ∧
    p1.advance = some (t, { p1 with peeked := none, currentTokenSpan := t.2 }) ∧
    p.advance = some (t, { p1 with peeked := none, currentTokenSpan := t.2 }) := by
  cases hp : p.peeked with
  | some t0 =>
      simp only [Parser.peek, hp, Option.some.injEq, Prod.mk.injEq] at h
      obtain ⟨rfl, rfl⟩ := h
      refine ⟨hp, ?_, ?_, ?_⟩
      · simp [Parser.peek, hp]
      · simp [Parser.advance, hp]
      · simp [Parser.advance, hp]
  | none =>
      simp only [Parser.peek, hp, Parser.advance, Option.map_map] at h
      cases hn : p.lexer.nextToken with
      | none => rw [hn] at h; simp at h
      | some tl =>
          obtain ⟨tn, lx⟩ := tl
          rw [hn] at h
          simp only [Option.map_some', Function.comp, Option.some.injEq,
            Prod.mk.injEq] at h
          obtain ⟨rfl, rfl⟩ := h
          refine ⟨rfl, ?_, ?_, ?_⟩
          · simp [Parser.peek]
          · simp [Parser.advance]
          · simp [Parser.advance, hp, hn]

/-- Claim C10: `consume` advances past the next token and returns `Ok`
exactly when it equals the expected kind; on a mismatch it returns an
`Expected` error carrying the expected kind, the found kind and its span,
and leaves the lookahead unchanged (the same token is still next). -/
theorem claim_C10_consume (p : Parser) (expected : TokenKind) (t : Spanned TokenKind)
    (p1 : Parser) (h : p.peek = some (t, p1)) :
    (t.1 = expected →
      p.consume expected =
        some (.ok (), { p1 with peeked := none, currentTokenSpan := t.2 })) ∧
    (t.1 ≠ expected →
      p.consume expected =
        some (.error ⟨.Expected [expected] t.1 t.2, none⟩, p1) ∧
      p1.peek = some (t, p1)) := by
  obtain ⟨hb, hpk, hadv, _⟩ := peek_spec p t p1 h
  constructor
  · intro he
    simp [Parser.consume, h, he, hadv]
  · intro he
    refine ⟨?_, hpk⟩
    simp [Parser.consume, h, he]

/-- Witness for claim C10 on the concrete source `"let"`: consuming the
expected keyword advances, consuming a different expectation yields the
`Expected` error and leaves the `let` token as the next token. -/
theorem claim_C10_consume_witness :
    (Parser.new "let" "f").consume .Let =
      some (.ok (), Parser.mk "let" (Lexer.mk [] 3 1 0) "f" (Span.mk 0 3) none) ∧
    (Parser.new "let" "f").consume .Fun =
      some (.error ⟨.Expected [.Fun] .Let ⟨0, 3⟩, none⟩,
        Parser.mk "let" (Lexer.mk [] 3 1 0) "f" (Span.mk 0 3) (some (.Let, ⟨0, 3⟩))) := by
  constructor
  · exact (claim_C10_consume (Parser.new "let" "f") .Let (.Let, ⟨0, 3⟩)
      (Parser.mk "let" (Lexer.mk [] 3 1 0) "f" (Span.mk 0 3) (some (.Let, ⟨0, 3⟩)))
      (by decide)).1 rfl
  · exact ((claim_C10_consume (Parser.new "let" "f") .Fun (.Let, ⟨0, 3⟩)
      (Parser.mk "let" (Lexer.mk [] 3 1 0) "f" (Span.mk 0 3) (some (.Let, ⟨0, 3⟩)))
      (by decide)).2 (by decide)).1

/-- Claim C1: the claim says converting an out-of-range integer literal
yields a `ParserError`; the code instead calls `i.parse().unwrap()`, and
the failed unwrap is a panic, modelled as `none`.  At the failing input
`"99999999999999999999"` the conversion panics, while an in-range literal
such as `"42"` converts normally. -/
theorem claim_C1_overflow_unwrap :
    parseLiteral (.Integer "99999999999999999999", ⟨0, 20⟩) = none ∧
    parseI64 "99999999999999999999" = none ∧
    parseLiteral (.Integer "42", ⟨0, 2⟩) =
      some (.ok (Expr.Literal (.Int 42), ⟨0, 2⟩)) :=
  ⟨rfl, rfl, rfl⟩

/-- Claim C9: the claim says `next_token` never underflows in
`position - len`; lexing the identifier `"ééé"` reaches `create_token`
with `position = 3` characters but `len = 6` bytes, so the `usize`
subtraction underflows and the lexer aborts (modelled as `none`). -/
theorem claim_C9_underflow :
    (Lexer.new "ééé").nextToken = none := by decide

/-- Claim C3 counterexample: on the already-exhausted empty source the
first end-of-input token has span `[1, 1)`, not the final offset `0`, and
the next call returns span `[2, 2)`: the `position` counter keeps
incrementing, so the result is not the same forever. -/
theorem claim_C3_counterexample :
    (Lexer.new "").nextToken = some ((.EoF, ⟨1, 1⟩), ⟨[], 1, 1, 0⟩) ∧
    (Lexer.mk [] 1 1 0).nextToken = some ((.EoF, ⟨2, 2⟩), ⟨[], 2, 1, 0⟩) ∧
    (Span.mk 1 1 ≠ Span.mk 2 2) ∧ (Span.mk 1 1 ≠ Span.mk 0 0) := by decide

/-- Claim C3 amended: once the character source is exhausted every call
to `next_token` returns the end-of-input token with an *empty* span, but
`advance` still increments `position`, so the k-th call after exhaustion
is at `[p + k, p + k)` (one past the final offset on the first call, and
drifting by one per call) rather than a fixed span at the final offset. -/
theorem claim_C3_amended (l : Lexer) (h : l.source = []) :
    l.nextToken = some ((.EoF, ⟨l.position + 1, l.position + 1⟩),
      { source := [], position := l.position + 1, line := l.line, column := l.column }) := by
  obtain ⟨src, pos, line, col⟩ := l
  simp only at h
  subst h
  simp [Lexer.nextToken, nextTokenAux, emitToken, createToken]

/-- Witness for the amended claim C3 at a concrete exhausted lexer. -/
theorem claim_C3_amended_witness :
    (Lexer.mk [] 7 1 0).source = [] ∧
    (Lexer.mk [] 7 1 0).nextToken = some ((.EoF, ⟨8, 8⟩), ⟨[], 8, 1, 0⟩) :=
  ⟨rfl, claim_C3_amended (Lexer.mk [] 7 1 0) rfl⟩

/-- Claim C4: parsing `"(1)"` yields the inner literal directly (no tuple
wrapper) and `"(1, 2)"` yields a tuple, as the claim states; but the
claimed optional trailing comma fails: on `"(1,)"` the tuple loop consumes
the comma and then unconditionally parses another expression, which
reaches `)` in prefix position and errors (a `todo!()` panic in the
unmodelled source) instead of producing the one-element tuple. -/
theorem claim_C4_grouping_tuple :
    parseExpr "(1)" = some (.ok (Expr.Literal (.Int 1), ⟨1, 2⟩)) ∧
    parseExpr "(1, 2)" = some (.ok (Expr.Tuple
      [(Expr.Literal (.Int 1), ⟨1, 2⟩), (Expr.Literal (.Int 2), ⟨4, 5⟩)], ⟨0, 6⟩)) ∧
    parseExpr "(1,)" = some (.error ⟨.Unexpected .CloseParen ⟨3, 4⟩, none⟩) :=
  ⟨rfl, rfl, rfl⟩

/-- Claim C7: a character that is not a recognized punctuation or
operator start, not a quote, not numeric, not an identifier start, and
not whitespace produces an error token naming that character, and exactly
one character is consumed so scanning continues with the rest. -/
theorem claim_C7_unknown_char (c : Char) (rest : List Char) (pos line col : Nat)
    (hpunct : c ∉ (['(', ')', '[', ']', ',', ':', '=', '!', '>', '<', '+', '*', '/',
      '-', '"'] : List Char))
    (hnum : isNumeric c = false) (hxid : isXidStart c = false) (hunder : c ≠ '_')
    (hws : c.isWhitespace = false) :
    nextTokenAux (c :: rest) pos line col =
      some ((.Error ("Unknown character ".push c), ⟨pos, pos + 1⟩),
        ⟨rest, pos + 1, line, col⟩) := by
  simp only [List.mem_cons, List.not_mem_nil, or_false, not_or] at hpunct
  obtain ⟨h1, h2, h3, h4, h5, h6, h7, h8, h9, h10, h11, h12, h13, h14, h15⟩ := hpunct
  have hnl : c ≠ '\n' := fun hc => by subst hc; exact absurd hws (by decide)
  simp [nextTokenAux, emitToken, createToken, h1, h2, h3, h4, h5, h6, h7, h8, h9, h10,
    h11, h12, h13, h14, h15, hnum, hxid, hunder, hws, hnl]

/-- Witness for claim C7 at the concrete character `#` mid-stream. -/
theorem claim_C7_unknown_char_witness :
    isNumeric '#' = false ∧ isXidStart '#' = false ∧
    nextTokenAux ('#' :: ['a', 'b']) 5 1 0 =
      some ((.Error ("Unknown character ".push '#'), ⟨5, 6⟩), ⟨['a', 'b'], 6, 1, 0⟩) :=
  ⟨by decide, by decide, claim_C7_unknown_char '#' ['a', 'b'] 5 1 0 (by decide)
    (by decide) (by decide) (by decide) (by decide)⟩

/-- Byte length equals character count on ASCII character lists. -/
theorem utf8Len_ascii (l : List Char) (h : l.all asciiChar = true) :
    utf8Len l = l.length := by
  induction l with
  | nil => rfl
  | cons c rest ih =>
      simp only [List.all_cons, Bool.and_eq_true, asciiChar, decide_eq_true_eq] at h
      have hc : charUtf8Size c = 1 := by simp [charUtf8Size, h.1]
      simp only [utf8Len, hc, ih h.2, List.length_cons]
      omega

/-- Closed form of the identifier loop: it consumes exactly the maximal
run of identifier-continue characters and classifies the accumulated text
through the keyword table. -/
theorem lexIdentifierAux_spec (rest : List Char) (pos line col : Nat) (value : List Char) :
    lexIdentifierAux rest pos line col value =
      emitToken (rest.dropWhile isXidContinue) (pos + (rest.takeWhile isXidContinue).length)
        line col (getKeyword (String.mk (value ++ rest.takeWhile isXidContinue)))
        (utf8Len (value ++ rest.takeWhile isXidContinue)) := by
  induction rest generalizing pos value with
  | nil => simp [lexIdentifierAux]
  | cons c rest ih =>
      simp only [lexIdentifierAux]
      by_cases hc : isXidContinue c = true
      · rw [if_pos hc, ih, List.takeWhile_cons_of_pos hc, List.dropWhile_cons_of_pos hc]
        have harr : (value ++ [c]) ++ rest.takeWhile isXidContinue =
            value ++ c :: rest.takeWhile isXidContinue := by
          simp
        have hpos : pos + 1 + (rest.takeWhile isXidContinue).length =
            pos + (c :: rest.takeWhile isXidContinue).length := by
          simp; omega
        rw [harr, hpos]
      · rw [if_neg hc, List.takeWhile_cons_of_neg hc, List.dropWhile_cons_of_neg hc]
        simp

/-- An identifier-start character (or underscore) matches none of the
earlier dispatch arms of `next_token`. -/
theorem xid_dispatch (c : Char) (h : isXidStart c = true ∨ c = '_') :
    c ≠ '(' ∧ c ≠ ')' ∧ c ≠ '[' ∧ c ≠ ']' ∧ c ≠ ',' ∧ c ≠ ':' ∧ c ≠ '=' ∧ c ≠ '!' ∧
    c ≠ '>' ∧ c ≠ '<' ∧ c ≠ '+' ∧ c ≠ '*' ∧ c ≠ '/' ∧ c ≠ '-' ∧ c ≠ '"' ∧
    isNumeric c = false := by
  have hv : (65 ≤ c.val.toNat ∧ c.val.toNat ≤ 90) ∨ (97 ≤ c.val.toNat ∧ c.val.toNat ≤ 122) ∨
      c = 'é' ∨ c = '_' := by
    rcases h with h | h
    · simp only [isXidStart, Char.isAlpha, Char.isUpper, Char.isLower, Bool.or_eq_true,
        Bool.and_eq_true, decide_eq_true_eq, ge_iff_le] at h
      rcases h with (h | h) | h
      · exact Or.inl h
      · exact Or.inr (Or.inl h)
      · exact Or.inr (Or.inr (Or.inl h))
    · exact Or.inr (Or.inr (Or.inr h))
  have hnum : (48 ≤ c.val.toNat → c.val.toNat ≤ 57 → False) → isNumeric c = false := by
    intro hx
    rw [Bool.eq_false_iff]
    intro hd
    simp only [isNumeric, Char.isDigit, Bool.and_eq_true, decide_eq_true_eq, ge_iff_le] at hd
    exact hx hd.1 hd.2
  rcases hv with ⟨h1, h2⟩ | ⟨h1, h2⟩ | rfl | rfl
  · refine ⟨?_, ?_, ?_, ?_, ?_, ?_, ?_, ?_, ?_, ?_, ?_, ?_, ?_, ?_, ?_, ?_⟩ <;>
      first
        | (rintro rfl; revert h1 h2; decide)
        | (exact hnum fun hd1 hd2 => by omega)
  · refine ⟨?_, ?_, ?_, ?_, ?_, ?_, ?_, ?_, ?_, ?_, ?_, ?_, ?_, ?_, ?_, ?_⟩ <;>
      first
        | (rintro rfl; revert h1 h2; decide)
        | (exact hnum fun hd1 hd2 => by omega)
  · decide
  · decide

/-- Claim C8 counterexample: `"éé"` is an identifier-shaped run (both
characters are XID_Start/XID_Continue), yet lexing it yields no identifier
token at all: the byte length 4 exceeds the character count 2 and the span
subtraction underflows (a panic), so the claim fails for non-ASCII
identifier text. -/
theorem claim_C8_counterexample : (Lexer.new "éé").nextToken = none := by decide

/-- Claim C8 amended: for an identifier-shaped run of ASCII characters,
the lexer consumes the maximal run and yields `get_keyword` of its text:
the matching keyword token for the fourteen keywords, and an identifier
token carrying the exact text otherwise. -/
theorem claim_C8_amended (c : Char) (rest : List Char) (pos line col : Nat)
    (hstart : isXidStart c = true ∨ c = '_')
    (hascii : (c :: rest.takeWhile isXidContinue).all asciiChar = true) :
    (nextTokenAux (c :: rest) pos line col =
      some ((getKeyword (String.mk (c :: rest.takeWhile isXidContinue)),
        ⟨pos, pos + 1 + (rest.takeWhile isXidContinue).length⟩),
        ⟨rest.dropWhile isXidContinue, pos + 1 + (rest.takeWhile isXidContinue).length,
          line, col⟩)) ∧
    (∀ s : String, s ∉ (["and", "do", "else", "end", "false", "for", "fun", "if", "let",
        "or", "return", "true", "type", "while"] : List String) → getKeyword s = .Ident s) ∧
    (getKeyword "and" = .And ∧ getKeyword "do" = .Do ∧ getKeyword "else" = .Else ∧
     getKeyword "end" = .End ∧ getKeyword "false" = .False ∧ getKeyword "for" = .For ∧
     getKeyword "fun" = .Fun ∧ getKeyword "if" = .If ∧ getKeyword "let" = .Let ∧
     getKeyword "or" = .Or ∧ getKeyword "return" = .Return ∧ getKeyword "true" = .True ∧
     getKeyword "type" = .Type ∧ getKeyword "while" = .While) := by
  obtain ⟨d1, d2, d3, d4, d5, d6, d7, d8, d9, d10, d11, d12, d13, d14, d15, dnum⟩ :=
    xid_dispatch c hstart
  have hcond : (isXidStart c || c = '_') = true := by
    rcases hstart with h | h
    · simp [h]
    · simp [h]
  refine ⟨?_, ?_, by decide⟩
  · have hlen : utf8Len (c :: rest.takeWhile isXidContinue) =
        (rest.takeWhile isXidContinue).length + 1 := by
      rw [utf8Len_ascii _ hascii]; simp
    simp only [nextTokenAux, d1, d2, d3, d4, d5, d6, d7, d8, d9, d10, d11, d12, d13, d14,
      d15, dnum, hcond, if_false, if_true, ite_false, ite_true]
    rw [lexIdentifierAux_spec]
    have hval : ([c] ++ rest.takeWhile isXidContinue) = c :: rest.takeWhile isXidContinue :=
      rfl
    rw [hval, emitToken, createToken, if_pos (by omega : utf8Len
      (c :: rest.takeWhile isXidContinue) ≤ pos + 1 + (rest.takeWhile isXidContinue).length)]
    have hsub : pos + 1 + (rest.takeWhile isXidContinue).length -
        utf8Len (c :: rest.takeWhile isXidContinue) = pos := by omega
    simp [hsub]
  · intro s hs
    simp only [List.mem_cons, List.not_mem_nil, or_false, not_or] at hs
    simp only [getKeyword]
    split <;> simp_all

/-- Witness for the amended claim C8: lexing `"while x"` yields the
keyword token `While` spanning the maximal run, leaving `" x"`. -/
theorem claim_C8_amended_witness :
    (isXidStart 'w' = true ∨ 'w' = '_') ∧
    nextTokenAux ('w' :: "hile x".data) 0 1 0 =
      some ((.While, ⟨0, 5⟩), ⟨[' ', 'x'], 5, 1, 0⟩) :=
  ⟨Or.inl (by decide),
    (claim_C8_amended 'w' "hile x".data 0 1 0 (Or.inl (by decide)) (by decide)).1⟩

/-- Behavior of `next_token` on an exhausted character source: `advance`
still increments the position, and the end-of-input token is produced with
an empty span one past the previous position. -/
theorem nextTokenAux_nil (pos line col : Nat) :
    nextTokenAux [] pos line col =
      some ((.EoF, ⟨pos + 1, pos + 1⟩), ⟨[], pos + 1, line, col⟩) := by
  simp [nextTokenAux, emitToken, createToken]

/-- Closed form of the string loop when no closing quote remains: the
whole rest is consumed and the unterminated error token is emitted. -/
theorem lexStringAux_noquote (rest : List Char) (pos line col : Nat) (value : List Char)
    (h : ∀ ch ∈ rest, ch ≠ '"') :
    lexStringAux rest pos line col value =
      emitToken [] (pos + rest.length) line col (.Error untermMsg)
        (utf8Len (value ++ rest)) := by
  induction rest generalizing pos value with
  | nil => simp [lexStringAux]
  | cons c rest ih =>
      have hc : c ≠ '"' := h c (List.mem_cons_self c rest)
      simp only [lexStringAux, if_neg hc]
      rw [ih (pos + 1) (value ++ [c]) fun ch hch => h ch (List.mem_cons_of_mem c hch)]
      have h1 : pos + 1 + rest.length = pos + (c :: rest).length := by
        simp; omega
      have h2 : (value ++ [c]) ++ rest = value ++ c :: rest := by simp
      rw [h1, h2]

/-- Claim C5 counterexample: for the non-ASCII input `"é` the error
token's span start is 0 instead of the correct content start 1 (slicing
yields the quote byte and half of the é), and for `"éé` the span
computation underflows and the lexer aborts rather than producing an
error token. -/
theorem claim_C5_counterexample :
    (Lexer.new "\"é").nextToken = some ((.Error untermMsg, ⟨0, 2⟩), ⟨[], 2, 1, 0⟩) ∧
    byteSlice (utf8Bytes "\"é".data) 0 2 ≠ utf8Bytes "é".data ∧
    (Lexer.new "\"éé").nextToken = none := by decide

/-- Claim C5 amended: for every input consisting of an opening quote
followed by ASCII content with no closing quote, the tokenizer emits
exactly one error token, carrying the unterminated-string message and
spanning exactly the consumed content (bytes 1 through the end), followed
only by the end-of-input token; it does not crash. -/
theorem claim_C5_amended (content : List Char) (hq : ∀ ch ∈ content, ch ≠ '"')
    (ha : content.all asciiChar = true) :
    tokenize (String.mk ('"' :: content)) =
      some [(.Error untermMsg, ⟨1, 1 + content.length⟩),
            (.EoF, ⟨1 + content.length + 1, 1 + content.length + 1⟩)] := by
  have hfirst : (Lexer.new (String.mk ('"' :: content))).nextToken =
      some ((.Error untermMsg, ⟨1, 1 + content.length⟩),
        ⟨[], 1 + content.length, 1, 0⟩) := by
    calc (Lexer.new (String.mk ('"' :: content))).nextToken
        = lexStringAux content 1 1 0 [] := rfl
      _ = emitToken [] (1 + content.length) 1 0 (.Error untermMsg)
            (utf8Len ([] ++ content)) := lexStringAux_noquote content 1 1 0 [] hq
      _ = some ((.Error untermMsg, ⟨1, 1 + content.length⟩),
            ⟨[], 1 + content.length, 1, 0⟩) := by
          simp only [List.nil_append]
          rw [utf8Len_ascii content ha]
          simp only [emitToken, createToken]
          rw [if_pos (by omega)]
          have hsub : 1 + content.length - content.length = 1 := by omega
          simp [hsub]
  have hlen : (String.mk ('"' :: content)).data.length = content.length + 1 := by simp
  unfold tokenize
  rw [hlen]
  have hfuel : content.length + 1 + 1 = (content.length + 1) + 1 := rfl
  rw [hfuel]
  simp only [tokensAux]
  rw [hfirst]
  simp [Lexer.nextToken, nextTokenAux_nil]

/-- Witness for the amended claim C5 at the concrete content `abc`. -/
theorem claim_C5_amended_witness :
    ((['a', 'b', 'c'] : List Char).all asciiChar = true) ∧
    tokenize (String.mk ('"' :: ['a', 'b', 'c'])) =
      some [(.Error untermMsg, ⟨1, 4⟩), (.EoF, ⟨5, 5⟩)] :=
  ⟨by decide, claim_C5_amended ['a', 'b', 'c'] (by decide) (by decide)⟩

/-- UTF-8 encoding distributes over append. -/
theorem utf8Bytes_append (a b : List Char) :
    utf8Bytes (a ++ b) = utf8Bytes a ++ utf8Bytes b := by
  induction a with
  | nil => simp [utf8Bytes]
  | cons c rest ih => simp [utf8Bytes, ih]

/-- An ASCII character encodes as its single code byte. -/
theorem utf8EncodeChar_ascii (c : Char) (h : asciiChar c = true) :
    utf8EncodeChar c = [UInt8.ofNat c.toNat] := by
  simp only [asciiChar, decide_eq_true_eq] at h
  simp [utf8EncodeChar, h]

/-- ASCII character lists encode to as many bytes as characters. -/
theorem utf8Bytes_length_ascii (l : List Char) (h : l.all asciiChar = true) :
    (utf8Bytes l).length = l.length := by
  induction l with
  | nil => rfl
  | cons c rest ih =>
      simp only [List.all_cons, Bool.and_eq_true] at h
      simp [utf8Bytes, utf8EncodeChar_ascii c h.1, ih h.2]

/-- Slicing the middle block out of a three-part byte concatenation. -/
theorem byteSlice_append (A B C : List UInt8) :
    byteSlice (A ++ (B ++ C)) A.length (A.length + B.length) = B := by
  simp only [byteSlice, List.drop_left, Nat.add_sub_cancel_left, List.take_left]

/-- Byte slice of the source at the location of a lexed run: with all
characters ASCII, the bytes of the run are recovered exactly. -/
theorem slice_spec (done used tail : List Char)
    (h : (done ++ (used ++ tail)).all asciiChar = true) :
    byteSlice (utf8Bytes (done ++ (used ++ tail))) done.length (done.length + used.length) =
      utf8Bytes used := by
  simp only [List.all_append, Bool.and_eq_true] at h
  have hd : (utf8Bytes done).length = done.length := utf8Bytes_length_ascii done h.1
  have hu : (utf8Bytes used).length = used.length := utf8Bytes_length_ascii used h.2.1
  rw [utf8Bytes_append, utf8Bytes_append, ← hd, ← hu, byteSlice_append]

/-- For a token kind other than a string literal or an error token,
`spanOk` is exactly slice-equals-lexeme. -/
theorem spanOk_fixed (src : List Char) (kind : TokenKind) (sp : Span)
    (hkS : ∀ s, kind ≠ .String s) (hkE : ∀ m, kind ≠ .Error m)
    (h : byteSlice (utf8Bytes src) sp.start sp.endPos = utf8Bytes (tokenText kind).data) :
    spanOk src (kind, sp) := by
  cases kind <;> simp_all [spanOk]

/-- Keyword classification preserves span correctness: whatever
`get_keyword` returns for a text, its lexeme is that text. -/
theorem spanOk_getKeyword (src : List Char) (s : String) (sp : Span)
    (h : byteSlice (utf8Bytes src) sp.start sp.endPos = utf8Bytes s.data) :
    spanOk src (getKeyword s, sp) := by
  unfold getKeyword
  split <;> simp_all [spanOk, tokenText]

/-- Closed form of the number loop: it consumes exactly the maximal run
of numeric characters. -/
theorem lexNumberAux_spec (rest : List Char) (pos line col : Nat) (value : List Char) :
    lexNumberAux rest pos line col value =
      emitToken (rest.dropWhile isNumeric) (pos + (rest.takeWhile isNumeric).length)
        line col (.Integer (String.mk (value ++ rest.takeWhile isNumeric)))
        (utf8Len (value ++ rest.takeWhile isNumeric)) := by
  induction rest generalizing pos value with
  | nil => simp [lexNumberAux]
  | cons c rest ih =>
      simp only [lexNumberAux]
      by_cases hc : isNumeric c = true
      · rw [if_pos hc, ih, List.takeWhile_cons_of_pos hc, List.dropWhile_cons_of_pos hc]
        have harr : (value ++ [c]) ++ rest.takeWhile isNumeric =
            value ++ c :: rest.takeWhile isNumeric := by simp
        have hpos : pos + 1 + (rest.takeWhile isNumeric).length =
            pos + (c :: rest.takeWhile isNumeric).length := by simp; omega
        rw [harr, hpos]
      · rw [if_neg hc, List.takeWhile_cons_of_neg hc, List.dropWhile_cons_of_neg hc]
        simp

/-- Closed form of the string loop when a closing quote is present: the
content is consumed, the quote is consumed, and the string token carries
the content. -/
theorem lexStringAux_quote (content : List Char) (rest2 : List Char) (pos line col : Nat)
    (value : List Char) (h : ∀ ch ∈ content, ch ≠ '"') :
    lexStringAux (content ++ '"' :: rest2) pos line col value =
      emitToken rest2 (pos + content.length + 1) line col
        (.String (String.mk (value ++ content))) (utf8Len (value ++ content)) := by
  induction content generalizing pos value with
  | nil => simp [lexStringAux]
  | cons c cs ih =>
      have hc : c ≠ '"' := h c (List.mem_cons_self c _)
      simp only [List.cons_append, lexStringAux, if_neg hc, List.append_eq]
      rw [ih (pos + 1) (value ++ [c]) fun ch hch => h ch (List.mem_cons_of_mem c hch)]
      have h1 : pos + 1 + cs.length = pos + (c :: cs).length := by
        simp; omega
      have h2 : (value ++ [c]) ++ cs = value ++ c :: cs := by simp
      rw [h1, h2]

/-- Splitting a character list at its first quote. -/
theorem split_at_quote (l : List Char) (h : '"' ∈ l) :
    ∃ content rest2, l = content ++ '"' :: rest2 ∧ ∀ ch ∈ content, ch ≠ '"' := by
  induction l with
  | nil => simp at h
  | cons c tail ih =>
      by_cases hc : c = '"'
      · exact ⟨[], tail, by simp [hc], by simp⟩
      · have hm : '"' ∈ tail := by
          rcases List.mem_cons.mp h with h | h
          · exact absurd h.symm hc
          · exact h
        obtain ⟨content, rest2, heq, hall⟩ := ih hm
        refine ⟨c :: content, rest2, by simp [heq], ?_⟩
        intro ch hch
        rcases List.mem_cons.mp hch with h | h
        · subst h; exact hc
        · exact hall ch h

/-- ASCII characters other than the quote encode to bytes other than the
quote byte 34. -/
theorem utf8Bytes_no_quote (l : List Char) (ha : l.all asciiChar = true)
    (h : ∀ ch ∈ l, ch ≠ '"') : ∀ b ∈ utf8Bytes l, b ≠ (34 : UInt8) := by
  induction l with
  | nil => simp [utf8Bytes]
  | cons c tail ih =>
      simp only [List.all_cons, Bool.and_eq_true] at ha
      simp only [utf8Bytes, utf8EncodeChar_ascii c ha.1, List.singleton_append,
        List.mem_cons]
      intro b hb
      rcases hb with hb | hb
      · subst hb
        intro hcontra
        have hlt : c.toNat < 128 := by
          have := ha.1
          simpa [asciiChar] using this
        have hval : c.toNat % 256 = 34 % 256 := congrArg UInt8.toNat hcontra
        rw [Nat.mod_eq_of_lt (by omega)] at hval
        have hc34 : c.toNat = 34 := by simpa using hval
        have hcq : c = '"' := by
          have hv : c.val.toNat = ('"' : Char).val.toNat := hc34
          exact Char.ext (UInt32.ext hv)
        exact absurd hcq (h c (List.mem_cons_self c tail))
      · exact ih ha.2 (fun ch hch => h ch (List.mem_cons_of_mem c hch)) b hb

/-- Span correctness of a fixed-lexeme token emitted at the boundary
between the consumed prefix and its own characters. -/
theorem fixed_step (done used tail : List Char) (kind : TokenKind)
    (h : (done ++ (used ++ tail)).all asciiChar = true)
    (hkS : ∀ s, kind ≠ .String s) (hkE : ∀ m, kind ≠ .Error m)
    (htext : (tokenText kind).data = used) :
    spanOk (done ++ (used ++ tail)) (kind, ⟨done.length, done.length + used.length⟩) := by
  apply spanOk_fixed _ _ _ hkS hkE
  rw [htext]
  exact slice_spec done used tail h

theorem nextToken_ascii (rest : List Char) : ∀ (done : List Char) (line col : Nat),
    (done ++ rest).all asciiChar = true →
    ∃ (t : Spanned TokenKind) (l2 : Lexer),
      nextTokenAux rest done.length line col = some (t, l2) ∧
      spanOk (done ++ rest) t ∧
      (t.1 = .EoF ∨ (∃ used : List Char, used ≠ [] ∧ rest = used ++ l2.source ∧
        l2.position = done.length + used.length)) := by
  induction rest with
  | nil =>
      intro done line col h
      refine ⟨(.EoF, ⟨done.length + 1, done.length + 1⟩), ⟨[], done.length + 1, line, col⟩,
        nextTokenAux_nil done.length line col, ?_, Or.inl rfl⟩
      simp [spanOk, tokenText, byteSlice, utf8Bytes]
  | cons c tail ih =>
      intro done line col h
      by_cases h1 : c = '('
      · subst h1
        refine ⟨(.OpenParen, ⟨done.length, done.length + 1⟩),
          ⟨tail, done.length + 1, line, col⟩, ?_, ?_,
          Or.inr ⟨['('], by simp, rfl, by simp⟩⟩
        · show emitToken tail (done.length + 1) line col .OpenParen 1 = _
          simp [emitToken, createToken]
        · exact fixed_step done ['('] tail .OpenParen h (fun _ => by simp) (fun _ => by simp) rfl
      by_cases h2 : c = ')'
      · subst h2
        refine ⟨(.CloseParen, ⟨done.length, done.length + 1⟩),
          ⟨tail, done.length + 1, line, col⟩, ?_, ?_,
          Or.inr ⟨[')'], by simp, rfl, by simp⟩⟩
        · show emitToken tail (done.length + 1) line col .CloseParen 1 = _
          simp [emitToken, createToken]
        · exact fixed_step done [')'] tail .CloseParen h (fun _ => by simp) (fun _ => by simp) rfl
      by_cases h3 : c = '['
      · subst h3
        refine ⟨(.OpenBracket, ⟨done.length, done.length + 1⟩),
          ⟨tail, done.length + 1, line, col⟩, ?_, ?_,
          Or.inr ⟨['['], by simp, rfl, by simp⟩⟩
        · show emitToken tail (done.length + 1) line col .OpenBracket 1 = _
          simp [emitToken, createToken]
        · exact fixed_step done ['['] tail .OpenBracket h (fun _ => by simp) (fun _ => by simp) rfl
      by_cases h4 : c = ']'
      · subst h4
        refine ⟨(.CloseBracket, ⟨done.length, done.length + 1⟩),
          ⟨tail, done.length + 1, line, col⟩, ?_, ?_,
          Or.inr ⟨[']'], by simp, rfl, by simp⟩⟩
        · show emitToken tail (done.length + 1) line col .CloseBracket 1 = _
          simp [emitToken, createToken]
        · exact fixed_step done [']'] tail .CloseBracket h (fun _ => by simp) (fun _ => by simp) rfl
      by_cases h5 : c = ','
      · subst h5
        refine ⟨(.Comma, ⟨done.length, done.length + 1⟩),
          ⟨tail, done.length + 1, line, col⟩, ?_, ?_,
          Or.inr ⟨[','], by simp, rfl, by simp⟩⟩
        · show emitToken tail (done.length + 1) line col .Comma 1 = _
          simp [emitToken, createToken]
        · exact fixed_step done [','] tail .Comma h (fun _ => by simp) (fun _ => by simp) rfl
      by_cases h6 : c = ':'
      · subst h6
        refine ⟨(.Colon, ⟨done.length, done.length + 1⟩),
          ⟨tail, done.length + 1, line, col⟩, ?_, ?_,
          Or.inr ⟨[':'], by simp, rfl, by simp⟩⟩
        · show emitToken tail (done.length + 1) line col .Colon 1 = _
          simp [emitToken, createToken]
        · exact fixed_step done [':'] tail .Colon h (fun _ => by simp) (fun _ => by simp) rfl
      by_cases h7 : c = '='
      · subst h7
        rcases tail with _ | ⟨c2, tail2⟩
        · refine ⟨(.Equal, ⟨done.length, done.length + 1⟩),
            ⟨[], done.length + 1, line, col⟩, ?_, ?_,
            Or.inr ⟨['='], by simp, rfl, by simp⟩⟩
          · show emitToken [] (done.length + 1) line col .Equal 1 = _
            simp [emitToken, createToken]
          · exact fixed_step done ['='] [] .Equal h (fun _ => by simp) (fun _ => by simp) rfl
        · by_cases h7b : c2 = '='
          · subst h7b
            refine ⟨(.EqualEqual, ⟨done.length, done.length + 2⟩),
              ⟨tail2, done.length + 2, line, col⟩, ?_, ?_,
              Or.inr ⟨['=', '='], by simp, rfl, by simp⟩⟩
            · show emitToken tail2 (done.length + 2) line col .EqualEqual 2 = _
              simp [emitToken, createToken]
            · exact fixed_step done ['=', '='] tail2 .EqualEqual h (fun _ => by simp)
                (fun _ => by simp) rfl
          · refine ⟨(.Equal, ⟨done.length, done.length + 1⟩),
              ⟨c2 :: tail2, done.length + 1, line, col⟩, ?_, ?_,
              Or.inr ⟨['='], by simp, rfl, by simp⟩⟩
            · have hcons : consumeChar '=' (c2 :: tail2) = (false, c2 :: tail2) := by
                simp [consumeChar, h7b]
              show (if (consumeChar '=' (c2 :: tail2)).1 then
                  emitToken (consumeChar '=' (c2 :: tail2)).2 (done.length + 2) line col
                    .EqualEqual 2
                else emitToken (consumeChar '=' (c2 :: tail2)).2 (done.length + 1) line col
                  .Equal 1) = _
              rw [hcons]
              simp [emitToken, createToken]
            · exact fixed_step done ['='] (c2 :: tail2) .Equal h (fun _ => by simp)
                (fun _ => by simp) rfl
      by_cases h8 : c = '!'
      · subst h8
        rcases tail with _ | ⟨c2, tail2⟩
        · refine ⟨(.Bang, ⟨done.length, done.length + 1⟩),
            ⟨[], done.length + 1, line, col⟩, ?_, ?_,
            Or.inr ⟨['!'], by simp, rfl, by simp⟩⟩
          · show emitToken [] (done.length + 1) line col .Bang 1 = _
            simp [emitToken, createToken]
          · exact fixed_step done ['!'] [] .Bang h (fun _ => by simp) (fun _ => by simp) rfl
        · by_cases h8b : c2 = '='
          · subst h8b
            refine ⟨(.BangEqual, ⟨done.length, done.length + 2⟩),
              ⟨tail2, done.length + 2, line, col⟩, ?_, ?_,
              Or.inr ⟨['!', '='], by simp, rfl, by simp⟩⟩
            · show emitToken tail2 (done.length + 2) line col .BangEqual 2 = _
              simp [emitToken, createToken]
            · exact fixed_step done ['!', '='] tail2 .BangEqual h (fun _ => by simp)
                (fun _ => by simp) rfl
          · refine ⟨(.Bang, ⟨done.length, done.length + 1⟩),
              ⟨c2 :: tail2, done.length + 1, line, col⟩, ?_, ?_,
              Or.inr ⟨['!'], by simp, rfl, by simp⟩⟩
            · have hcons : consumeChar '=' (c2 :: tail2) = (false, c2 :: tail2) := by
                simp [consumeChar, h8b]
              show (if (consumeChar '=' (c2 :: tail2)).1 then
                  emitToken (consumeChar '=' (c2 :: tail2)).2 (done.length + 2) line col
                    .BangEqual 2
                else emitToken (consumeChar '=' (c2 :: tail2)).2 (done.length + 1) line col
                  .Bang 1) = _
              rw [hcons]
              simp [emitToken, createToken]
            · exact fixed_step done ['!'] (c2 :: tail2) .Bang h (fun _ => by simp)
                (fun _ => by simp) rfl
      by_cases h9 : c = '>'
      · subst h9
        rcases tail with _ | ⟨c2, tail2⟩
        · refine ⟨(.Greater, ⟨done.length, done.length + 1⟩),
            ⟨[], done.length + 1, line, col⟩, ?_, ?_,
            Or.inr ⟨['>'], by simp, rfl, by simp⟩⟩
          · show emitToken [] (done.length + 1) line col .Greater 1 = _
            simp [emitToken, createToken]
          · exact fixed_step done ['>'] [] .Greater h (fun _ => by simp) (fun _ => by simp) rfl
        · by_cases h9b : c2 = '='
          · subst h9b
            refine ⟨(.GreaterEqual, ⟨done.length, done.length + 2⟩),
              ⟨tail2, done.length + 2, line, col⟩, ?_, ?_,
              Or.inr ⟨['>', '='], by simp, rfl, by simp⟩⟩
            · show emitToken tail2 (done.length + 2) line col .GreaterEqual 2 = _
              simp [emitToken, createToken]
            · exact fixed_step done ['>', '='] tail2 .GreaterEqual h (fun _ => by simp)
                (fun _ => by simp) rfl
          · refine ⟨(.Greater, ⟨done.length, done.length + 1⟩),
              ⟨c2 :: tail2, done.length + 1, line, col⟩, ?_, ?_,
              Or.inr ⟨['>'], by simp, rfl, by simp⟩⟩
            · have hcons : consumeChar '=' (c2 :: tail2) = (false, c2 :: tail2) := by
                simp [consumeChar, h9b]
              show (if (consumeChar '=' (c2 :: tail2)).1 then
                  emitToken (consumeChar '=' (c2 :: tail2)).2 (done.length + 2) line col
                    .GreaterEqual 2
                else emitToken (consumeChar '=' (c2 :: tail2)).2 (done.length + 1) line col
                  .Greater 1) = _
              rw [hcons]
              simp [emitToken, createToken]
            · exact fixed_step done ['>'] (c2 :: tail2) .Greater h (fun _ => by simp)
                (fun _ => by simp) rfl
      by_cases h10 : c = '<'
      · subst h10
        rcases tail with _ | ⟨c2, tail2⟩
        · refine ⟨(.Less, ⟨done.length, done.length + 1⟩),
            ⟨[], done.length + 1, line, col⟩, ?_, ?_,
            Or.inr ⟨['<'], by simp, rfl, by simp⟩⟩
          · show emitToken [] (done.length + 1) line col .Less 1 = _
            simp [emitToken, createToken]
          · exact fixed_step done ['<'] [] .Less h (fun _ => by simp) (fun _ => by simp) rfl
        · by_cases h10b : c2 = '='
          · subst h10b
            refine ⟨(.LessEqual, ⟨done.length, done.length + 2⟩),
              ⟨tail2, done.length + 2, line, col⟩, ?_, ?_,
              Or.inr ⟨['<', '='], by simp, rfl, by simp⟩⟩
            · show emitToken tail2 (done.length + 2) line col .LessEqual 2 = _
              simp [emitToken, createToken]
            · exact fixed_step done ['<', '='] tail2 .LessEqual h (fun _ => by simp)
                (fun _ => by simp) rfl
          · refine ⟨(.Less, ⟨done.length, done.length + 1⟩),
              ⟨c2 :: tail2, done.length + 1, line, col⟩, ?_, ?_,
              Or.inr ⟨['<'], by simp, rfl, by simp⟩⟩
            · have hcons : consumeChar '=' (c2 :: tail2) = (false, c2 :: tail2) := by
                simp [consumeChar, h10b]
              show (if (consumeChar '=' (c2 :: tail2)).1 then
                  emitToken (consumeChar '=' (c2 :: tail2)).2 (done.length + 2) line col
                    .LessEqual 2
                else emitToken (consumeChar '=' (c2 :: tail2)).2 (done.length + 1) line col
                  .Less 1) = _
              rw [hcons]
              simp [emitToken, createToken]
            · exact fixed_step done ['<'] (c2 :: tail2) .Less h (fun _ => by simp)
                (fun _ => by simp) rfl
      by_cases h11 : c = '+'
      · subst h11
        refine ⟨(.Plus, ⟨done.length, done.length + 1⟩),
          ⟨tail, done.length + 1, line, col⟩, ?_, ?_,
          Or.inr ⟨['+'], by simp, rfl, by simp⟩⟩
        · show emitToken tail (done.length + 1) line col .Plus 1 = _
          simp [emitToken, createToken]
        · exact fixed_step done ['+'] tail .Plus h (fun _ => by simp) (fun _ => by simp) rfl
      by_cases h12 : c = '*'
      · subst h12
        refine ⟨(.Star, ⟨done.length, done.length + 1⟩),
          ⟨tail, done.length + 1, line, col⟩, ?_, ?_,
          Or.inr ⟨['*'], by simp, rfl, by simp⟩⟩
        · show emitToken tail (done.length + 1) line col .Star 1 = _
          simp [emitToken, createToken]
        · exact fixed_step done ['*'] tail .Star h (fun _ => by simp) (fun _ => by simp) rfl
      by_cases h13 : c = '/'
      · subst h13
        refine ⟨(.Slash, ⟨done.length, done.length + 1⟩),
          ⟨tail, done.length + 1, line, col⟩, ?_, ?_,
          Or.inr ⟨['/'], by simp, rfl, by simp⟩⟩
        · show emitToken tail (done.length + 1) line col .Slash 1 = _
          simp [emitToken, createToken]
        · exact fixed_step done ['/'] tail .Slash h (fun _ => by simp) (fun _ => by simp) rfl
      by_cases h14 : c = '-'
      · subst h14
        rcases tail with _ | ⟨c2, tail2⟩
        · refine ⟨(.Minus, ⟨done.length, done.length + 1⟩),
            ⟨[], done.length + 1, line, col⟩, ?_, ?_,
            Or.inr ⟨['-'], by simp, rfl, by simp⟩⟩
          · show emitToken [] (done.length + 1) line col .Minus 1 = _
            simp [emitToken, createToken]
          · exact fixed_step done ['-'] [] .Minus h (fun _ => by simp) (fun _ => by simp) rfl
        · by_cases h14b : c2 = '>'
          · subst h14b
            refine ⟨(.Arrow, ⟨done.length, done.length + 2⟩),
              ⟨tail2, done.length + 2, line, col⟩, ?_, ?_,
              Or.inr ⟨['-', '>'], by simp, rfl, by simp⟩⟩
            · show emitToken tail2 (done.length + 2) line col .Arrow 2 = _
              simp [emitToken, createToken]
            · exact fixed_step done ['-', '>'] tail2 .Arrow h (fun _ => by simp)
                (fun _ => by simp) rfl
          · refine ⟨(.Minus, ⟨done.length, done.length + 1⟩),
              ⟨c2 :: tail2, done.length + 1, line, col⟩, ?_, ?_,
              Or.inr ⟨['-'], by simp, rfl, by simp⟩⟩
            · have hcons : consumeChar '>' (c2 :: tail2) = (false, c2 :: tail2) := by
                simp [consumeChar, h14b]
              show (if (consumeChar '>' (c2 :: tail2)).1 then
                  emitToken (consumeChar '>' (c2 :: tail2)).2 (done.length + 2) line col
                    .Arrow 2
                else emitToken (consumeChar '>' (c2 :: tail2)).2 (done.length + 1) line col
                  .Minus 1) = _
              rw [hcons]
              simp [emitToken, createToken]
            · exact fixed_step done ['-'] (c2 :: tail2) .Minus h (fun _ => by simp)
                (fun _ => by simp) rfl
      by_cases h15 : c = '"'
      · subst h15
        by_cases hqm : '"' ∈ tail
        · obtain ⟨content, rest2, rfl, hnoq⟩ := split_at_quote tail hqm
          have hac : content.all asciiChar = true := by
            rw [List.all_eq_true] at h ⊢
            intro x hx
            exact h x (by simp [hx])
          have hlenc : utf8Len content = content.length := utf8Len_ascii content hac
          refine ⟨(.String (String.mk content),
              ⟨done.length + 2, done.length + 2 + content.length⟩),
            ⟨rest2, done.length + 2 + content.length, line, col⟩, ?_, ?_,
            Or.inr ⟨'"' :: (content ++ ['"']), by simp, by simp, by simp <;> omega⟩⟩
          · have hstep : nextTokenAux ('"' :: (content ++ '"' :: rest2)) done.length line col =
                lexStringAux (content ++ '"' :: rest2) (done.length + 1) line col [] := rfl
            rw [hstep, lexStringAux_quote content rest2 (done.length + 1) line col [] hnoq]
            simp only [List.nil_append, emitToken, createToken, hlenc]
            rw [if_pos (by omega)]
            have e1 : done.length + 1 + content.length + 1 - content.length =
                done.length + 2 := by omega
            have e2 : done.length + 1 + content.length + 1 =
                done.length + 2 + content.length := by omega
            simp [e1, e2]
          · have hsrc : done ++ '"' :: (content ++ '"' :: rest2) =
                (done ++ ['"']) ++ (content ++ ('"' :: rest2)) := by simp
            rw [hsrc]
            simp only [spanOk]
            refine ⟨by omega, ?_⟩
            have e1 : done.length + 2 - 1 = (done ++ ['"']).length := by simp
            have e2 : done.length + 2 + content.length - 1 =
                (done ++ ['"']).length + content.length := by simp <;> omega
            rw [e1, e2]
            exact slice_spec (done ++ ['"']) content ('"' :: rest2) (by simpa using h)
        · have hnoq : ∀ ch ∈ tail, ch ≠ '"' := fun ch hch heq => hqm (heq ▸ hch)
          have hat : tail.all asciiChar = true := by
            rw [List.all_eq_true] at h ⊢
            intro x hx
            exact h x (by simp [hx])
          have hdone : done.all asciiChar = true := by
            rw [List.all_eq_true] at h ⊢
            intro x hx
            exact h x (by simp [hx])
          have hlent : utf8Len tail = tail.length := utf8Len_ascii tail hat
          have hdl : (utf8Bytes done).length = done.length := utf8Bytes_length_ascii done hdone
          refine ⟨(.Error untermMsg, ⟨done.length + 1, done.length + 1 + tail.length⟩),
            ⟨[], done.length + 1 + tail.length, line, col⟩, ?_, ?_,
            Or.inr ⟨'"' :: tail, by simp, by simp, by simp <;> omega⟩⟩
          · have hstep : nextTokenAux ('"' :: tail) done.length line col =
                lexStringAux tail (done.length + 1) line col [] := rfl
            rw [hstep, lexStringAux_noquote tail (done.length + 1) line col [] hnoq]
            simp only [List.nil_append, emitToken, createToken, hlent]
            rw [if_pos (by omega)]
            have e1 : done.length + 1 + tail.length - tail.length = done.length + 1 := by omega
            simp [e1]
          · simp only [spanOk, if_true]
            have hb : utf8Bytes (done ++ '"' :: tail) =
                utf8Bytes done ++ ((34 : UInt8) :: utf8Bytes tail) := by
              rw [utf8Bytes_append]
              rfl
            refine ⟨by omega, ?_, ?_, ?_⟩
            · have e0 : done.length + 1 - 1 = done.length := by omega
              rw [e0, hb, ← hdl, List.get?_append_right (le_refl _)]
              simp
            · rw [hb]
              simp only [List.length_append, List.length_cons]
              have htl : (utf8Bytes tail).length = tail.length :=
                utf8Bytes_length_ascii tail hat
              omega
            · have hsrc : done ++ '"' :: tail = (done ++ ['"']) ++ (tail ++ []) := by simp
              rw [hsrc]
              have e1 : done.length + 1 = (done ++ ['"']).length := by simp
              rw [e1, slice_spec (done ++ ['"']) tail [] (by simpa using h)]
              exact utf8Bytes_no_quote tail hat hnoq
      by_cases hnum : isNumeric c = true
      · have hsrc : done ++ c :: tail =
            done ++ ((c :: tail.takeWhile isNumeric) ++ tail.dropWhile isNumeric) := by
          simp [List.takeWhile_append_dropWhile]
        have hvasc : (c :: tail.takeWhile isNumeric).all asciiChar = true := by
          rw [List.all_eq_true] at h ⊢
          intro x hx
          apply h
          rcases List.mem_cons.mp hx with hx | hx
          · simp [hx]
          · simp [List.takeWhile_subset _ hx]
        have hlenv : utf8Len (c :: tail.takeWhile isNumeric) =
            (tail.takeWhile isNumeric).length + 1 := by
          rw [utf8Len_ascii _ hvasc]
          simp
        refine ⟨(.Integer (String.mk (c :: tail.takeWhile isNumeric)),
            ⟨done.length, done.length + ((tail.takeWhile isNumeric).length + 1)⟩),
          ⟨tail.dropWhile isNumeric, done.length + ((tail.takeWhile isNumeric).length + 1),
            line, col⟩, ?_, ?_,
          Or.inr ⟨c :: tail.takeWhile isNumeric, by simp,
            by simp [List.takeWhile_append_dropWhile], by simp⟩⟩
        · simp only [nextTokenAux, h1, h2, h3, h4, h5, h6, h7, h8, h9, h10, h11, h12, h13,
            h14, h15, hnum, if_false, ite_false, if_true, ite_true]
          rw [lexNumberAux_spec]
          simp only [List.singleton_append, emitToken, createToken, hlenv]
          rw [if_pos (show (tail.takeWhile isNumeric).length + 1 ≤
            done.length + 1 + (tail.takeWhile isNumeric).length by omega)]
          have e1 : done.length + 1 + (tail.takeWhile isNumeric).length -
              ((tail.takeWhile isNumeric).length + 1) = done.length := by omega
          have e2 : done.length + 1 + (tail.takeWhile isNumeric).length =
              done.length + ((tail.takeWhile isNumeric).length + 1) := by omega
          simp [e1, e2]
        · rw [hsrc]
          apply spanOk_fixed
          · intro s
            simp
          · intro m
            simp
          · show byteSlice _ _ _ = utf8Bytes (c :: tail.takeWhile isNumeric)
            have := slice_spec done (c :: tail.takeWhile isNumeric) (tail.dropWhile isNumeric)
              (by rw [← hsrc]; exact h)
            simpa using this
      by_cases hxid : isXidStart c = true ∨ c = '_'
      · have hcond : (isXidStart c || c = '_') = true := by
          rcases hxid with hx | hx
          · simp [hx]
          · simp [hx]
        have hsrc : done ++ c :: tail =
            done ++ ((c :: tail.takeWhile isXidContinue) ++ tail.dropWhile isXidContinue) := by
          simp [List.takeWhile_append_dropWhile]
        have hvasc : (c :: tail.takeWhile isXidContinue).all asciiChar = true := by
          rw [List.all_eq_true] at h ⊢
          intro x hx
          apply h
          rcases List.mem_cons.mp hx with hx | hx
          · simp [hx]
          · simp [List.takeWhile_subset _ hx]
        have hlenv : utf8Len (c :: tail.takeWhile isXidContinue) =
            (tail.takeWhile isXidContinue).length + 1 := by
          rw [utf8Len_ascii _ hvasc]
          simp
        refine ⟨(getKeyword (String.mk (c :: tail.takeWhile isXidContinue)),
            ⟨done.length, done.length + ((tail.takeWhile isXidContinue).length + 1)⟩),
          ⟨tail.dropWhile isXidContinue,
            done.length + ((tail.takeWhile isXidContinue).length + 1), line, col⟩, ?_, ?_,
          Or.inr ⟨c :: tail.takeWhile isXidContinue, by simp,
            by simp [List.takeWhile_append_dropWhile], by simp⟩⟩
        · simp only [nextTokenAux, h1, h2, h3, h4, h5, h6, h7, h8, h9, h10, h11, h12, h13,
            h14, h15, hnum, hcond, if_false, ite_false, if_true, ite_true]
          rw [lexIdentifierAux_spec]
          simp only [List.singleton_append, emitToken, createToken, hlenv]
          rw [if_pos (show (tail.takeWhile isXidContinue).length + 1 ≤
            done.length + 1 + (tail.takeWhile isXidContinue).length by omega)]
          have e1 : done.length + 1 + (tail.takeWhile isXidContinue).length -
              ((tail.takeWhile isXidContinue).length + 1) = done.length := by omega
          have e2 : done.length + 1 + (tail.takeWhile isXidContinue).length =
              done.length + ((tail.takeWhile isXidContinue).length + 1) := by omega
          simp [e1, e2]
        · rw [hsrc]
          apply spanOk_getKeyword
          have := slice_spec done (c :: tail.takeWhile isXidContinue)
            (tail.dropWhile isXidContinue) (by rw [← hsrc]; exact h)
          simpa using this
      by_cases hnl : c = '\n'
      · subst hnl
        have h' : ((done ++ ['\n']) ++ tail).all asciiChar = true := by simpa using h
        obtain ⟨t, l2, heq, hspan, hpost⟩ := ih (done ++ ['\n']) (line + 1) 0 h'
        rw [List.length_append] at heq
        simp only [List.length_cons, List.length_nil] at heq
        refine ⟨t, l2, ?_, by simpa using hspan, ?_⟩
        · show nextTokenAux tail (done.length + 1) (line + 1) 0 = some (t, l2)
          convert heq using 2 <;> omega
        · rcases hpost with hpost | ⟨used, hne, hsplit, hposn⟩
          · exact Or.inl hpost
          · refine Or.inr ⟨'\n' :: used, by simp, by simp [hsplit], ?_⟩
            simp only [List.length_append, List.length_cons, List.length_nil] at hposn ⊢
            omega
      by_cases hws : c.isWhitespace = true
      · have hx1 : isXidStart c = false := by
          rcases hx : isXidStart c with _ | _
          · rfl
          · exact absurd (Or.inl hx) hxid
        have hx2 : c ≠ '_' := fun hc => hxid (Or.inr hc)
        have h' : ((done ++ [c]) ++ tail).all asciiChar = true := by simpa using h
        obtain ⟨t, l2, heq, hspan, hpost⟩ := ih (done ++ [c]) line col h'
        rw [List.length_append] at heq
        simp only [List.length_cons, List.length_nil] at heq
        refine ⟨t, l2, ?_, by simpa using hspan, ?_⟩
        · simp only [nextTokenAux, h1, h2, h3, h4, h5, h6, h7, h8, h9, h10, h11, h12, h13,
            h14, h15, hnum, hx1, hx2, hnl, hws, if_false, ite_false, if_true, ite_true,
            Bool.or_self, decide_eq_true_eq]
          convert heq using 2 <;> omega
        · rcases hpost with hpost | ⟨used, hne, hsplit, hposn⟩
          · exact Or.inl hpost
          · refine Or.inr ⟨c :: used, by simp, by simp [hsplit], ?_⟩
            simp only [List.length_append, List.length_cons, List.length_nil] at hposn ⊢
            omega
      · have hx1 : isXidStart c = false := by
          rcases hx : isXidStart c with _ | _
          · rfl
          · exact absurd (Or.inl hx) hxid
        have hx2 : c ≠ '_' := fun hc => hxid (Or.inr hc)
        have hwsf : c.isWhitespace = false := by
          rcases hw : c.isWhitespace with _ | _
          · rfl
          · exact absurd hw hws
        have hca : asciiChar c = true := by
          rw [List.all_eq_true] at h
          exact h c (by simp)
        have hneMsg : ¬("Unknown character ".push c = untermMsg) := by
          intro hcontra
          have hll : ("Unknown character ".data ++ [c]).length = untermMsg.data.length :=
            congrArg (fun s : String => s.data.length) hcontra
          simp only [List.length_append, List.length_cons, List.length_nil] at hll
          exact absurd hll (by decide)
        refine ⟨(.Error ("Unknown character ".push c), ⟨done.length, done.length + 1⟩),
          ⟨tail, done.length + 1, line, col⟩, ?_, ?_,
          Or.inr ⟨[c], by simp, rfl, by simp⟩⟩
        · simp only [nextTokenAux, h1, h2, h3, h4, h5, h6, h7, h8, h9, h10, h11, h12, h13,
            h14, h15, hnum, hx1, hx2, hnl, hwsf, if_false, ite_false, if_true, ite_true,
            Bool.or_self, decide_eq_true_eq, emitToken, createToken]
          simp
        · have hdrop : ("Unknown character ".push c).data.drop 18 = [c] := by
            rw [show ("Unknown character ".push c).data =
              "Unknown character ".data ++ [c] from rfl]
            rw [show (18 : Nat) = ("Unknown character ".data).length from by decide]
            exact List.drop_left _ _
          have htake : ("Unknown character ".push c).data.take 18 =
              "Unknown character ".data := by
            rw [show ("Unknown character ".push c).data =
              "Unknown character ".data ++ [c] from rfl]
            rw [show (18 : Nat) = ("Unknown character ".data).length from by decide]
            exact List.take_left _ _
          simp only [spanOk]
          rw [if_neg hneMsg]
          refine ⟨?_, ?_⟩
          · rw [hdrop]
            have := slice_spec done [c] tail (by simpa using h)
            simpa using this
          · rw [htake]

theorem tokensAux_step (fuel : Nat) (l : Lexer) (t : Spanned TokenKind) (l2 : Lexer)
    (h : l.nextToken = some (t, l2)) (hne : t.1 ≠ .EoF) :
    tokensAux (fuel + 1) l = (tokensAux fuel l2).map (t :: ·) := by
  simp [tokensAux, h, hne]

theorem tokensAux_eof (fuel : Nat) (l : Lexer) (t : Spanned TokenKind) (l2 : Lexer)
    (h : l.nextToken = some (t, l2)) (he : t.1 = .EoF) :
    tokensAux (fuel + 1) l = some [t] := by
  simp [tokensAux, h, he]

theorem tokensAux_ascii (n : Nat) : ∀ (l : Lexer) (done : List Char),
    l.position = done.length → l.source.length ≤ n →
    (done ++ l.source).all asciiChar = true →
    ∃ toks, tokensAux (n + 1) l = some toks ∧ ∀ tk ∈ toks, spanOk (done ++ l.source) tk := by
  induction n with
  | zero =>
      intro l done hpos hlen h
      have hsrc : l.source = [] := List.length_eq_zero.mp (Nat.le_zero.mp hlen)
      refine ⟨[(.EoF, ⟨l.position + 1, l.position + 1⟩)], ?_, ?_⟩
      · simp [tokensAux, Lexer.nextToken, hsrc, nextTokenAux_nil]
      · intro tk htk
        simp only [List.mem_singleton] at htk
        subst htk
        rw [hsrc, hpos]
        simp [spanOk, tokenText, byteSlice, utf8Bytes]
  | succ n ih =>
      intro l done hpos hlen h
      obtain ⟨t, l2, heq, hspan, hpost⟩ := nextToken_ascii l.source done l.line l.column h
      have hnext : l.nextToken = some (t, l2) := by
        rw [Lexer.nextToken, hpos]
        exact heq
      by_cases heof : t.1 = .EoF
      · refine ⟨[t], tokensAux_eof (n + 1) l t l2 hnext heof, ?_⟩
        intro tk htk
        simp only [List.mem_singleton] at htk
        subst htk
        exact hspan
      · rcases hpost with heof2 | ⟨used, hne, hsplit, hposn⟩
        · exact absurd heof2 heof
        · have hpos2 : l2.position = (done ++ used).length := by
            simp [hposn, List.length_append]
          have hlen2 : l2.source.length ≤ n := by
            have hls : l.source.length = used.length + l2.source.length := by
              rw [hsplit]
              simp
            have hu : 1 ≤ used.length := by
              cases used with
              | nil => exact absurd rfl hne
              | cons a b => simp
            omega
          have h2 : ((done ++ used) ++ l2.source).all asciiChar = true := by
            rw [List.append_assoc, ← hsplit]
            exact h
          obtain ⟨toks, htoks, hsp⟩ := ih l2 (done ++ used) hpos2 hlen2 h2
          refine ⟨t :: toks, ?_, ?_⟩
          · rw [tokensAux_step (n + 1) l t l2 hnext heof, htoks]
            rfl
          · intro tk htk
            rcases List.mem_cons.mp htk with htk | htk
            · subst htk
              exact hspan
            · have hx := hsp tk htk
              rw [hsplit, ← List.append_assoc]
              exact hx

/-- Claim C2 counterexample: the claimed byte-exact spans fail on the
code.  For the ASCII source `"ab"` (a terminated string literal) the
string token's span is `[2, 4)`, which slices to `b"` rather than the
content `ab` (the closing quote is consumed before the span is computed).
For the source `" é"` the identifier token's span is `[0, 2)`: `position`
counts characters while `len` counts bytes, so the span neither starts at
the identifier nor slices to its lexeme. -/
theorem claim_C2_counterexample :
    tokenize "\"ab\"" = some [(.String "ab", ⟨2, 4⟩), (.EoF, ⟨5, 5⟩)] ∧
    byteSlice (utf8Bytes "\"ab\"".data) 2 4 ≠ utf8Bytes "ab".data ∧
    tokenize " é" = some [(.Ident "é", ⟨0, 2⟩), (.EoF, ⟨3, 3⟩)] ∧
    byteSlice (utf8Bytes " é".data) 0 2 ≠ utf8Bytes "é".data := by decide

/-- Claim C2 amended: for every ASCII source the tokenizer succeeds and
every produced token satisfies `spanOk`: slicing the source bytes at the
token's span reproduces the lexeme exactly for punctuation, operator,
integer, identifier, keyword and end-of-input tokens, and for
unknown-character error tokens the offending character; a terminated
string literal's span sits one byte right of its content (the closing
quote is consumed before `create_token` runs), and an unterminated-string
error token spans exactly the consumed content. -/
theorem claim_C2_amended (s : String) (h : s.data.all asciiChar = true) :
    ∃ toks, tokenize s = some toks ∧ ∀ tk ∈ toks, spanOk s.data tk := by
  obtain ⟨toks, htoks, hsp⟩ := tokensAux_ascii s.data.length (Lexer.new s) [] rfl
    (le_refl _) (by simpa using h)
  exact ⟨toks, htoks, by simpa using hsp⟩

/-- Witness for the amended claim C2 on the concrete source `let x`. -/
theorem claim_C2_amended_witness :
    ("let x".data.all asciiChar = true) ∧
    (∃ toks, tokenize "let x" = some toks ∧ ∀ tk ∈ toks, spanOk "let x".data tk) :=
  ⟨by decide, claim_C2_amended "let x" (by decide)⟩

/-- Inversion for a successful `emitToken`. -/
theorem emitToken_inv (src : List Char) (pos line col : Nat) (kind : TokenKind) (len : Nat)
    (t : Spanned TokenKind) (l2 : Lexer)
    (h : emitToken src pos line col kind len = some (t, l2)) :
    t = (kind, ⟨pos - len, pos⟩) ∧ l2 = ⟨src, pos, line, col⟩ := by
  simp only [emitToken, createToken] at h
  split at h
  · simp only [Option.map_some', Option.some.injEq, Prod.mk.injEq] at h
    exact ⟨h.1.symm, h.2.symm⟩
  · simp at h

/-- The `consume` helper never lengthens the stream. -/
theorem consumeChar_le (expected : Char) (src : List Char) :
    (consumeChar expected src).2.length ≤ src.length := by
  unfold consumeChar
  split
  · split <;> simp
  · simp

/-- The string loop never lengthens the stream. -/
theorem lexStringAux_src_le (src : List Char) : ∀ (pos line col : Nat) (value : List Char)
    (t : Spanned TokenKind) (l2 : Lexer),
    lexStringAux src pos line col value = some (t, l2) → l2.source.length ≤ src.length := by
  induction src with
  | nil =>
      intro pos line col value t l2 h
      obtain ⟨-, rfl⟩ := emitToken_inv _ _ _ _ _ _ _ _ h
      simp
  | cons c rest ih =>
      intro pos line col value t l2 h
      simp only [lexStringAux] at h
      split at h
      · obtain ⟨-, rfl⟩ := emitToken_inv _ _ _ _ _ _ _ _ h
        simp
      · exact le_trans (ih _ _ _ _ _ _ h) (by simp)

/-- The number loop never lengthens the stream. -/
theorem lexNumberAux_src_le (src : List Char) : ∀ (pos line col : Nat) (value : List Char)
    (t : Spanned TokenKind) (l2 : Lexer),
    lexNumberAux src pos line col value = some (t, l2) → l2.source.length ≤ src.length := by
  induction src with
  | nil =>
      intro pos line col value t l2 h
      obtain ⟨-, rfl⟩ := emitToken_inv _ _ _ _ _ _ _ _ h
      simp
  | cons c rest ih =>
      intro pos line col value t l2 h
      simp only [lexNumberAux] at h
      split at h
      · exact le_trans (ih _ _ _ _ _ _ h) (by simp)
      · obtain ⟨-, rfl⟩ := emitToken_inv _ _ _ _ _ _ _ _ h
        simp
/-- The identifier loop never lengthens the stream. -/
theorem lexIdentifierAux_src_le (src : List Char) : ∀ (pos line col : Nat) (value : List Char)
    (t : Spanned TokenKind) (l2 : Lexer),
    lexIdentifierAux src pos line col value = some (t, l2) → l2.source.length ≤ src.length := by
  induction src with
  | nil =>
      intro pos line col value t l2 h
      obtain ⟨-, rfl⟩ := emitToken_inv _ _ _ _ _ _ _ _ h
      simp
  | cons c rest ih =>
      intro pos line col value t l2 h
      simp only [lexIdentifierAux] at h
      split at h
      · exact le_trans (ih _ _ _ _ _ _ h) (by simp)
      · obtain ⟨-, rfl⟩ := emitToken_inv _ _ _ _ _ _ _ _ h
        simp

/-- Dispatch of `next_token` into the number loop. -/
theorem nextTokenAux_num (c : Char) (rest : List Char) (pos line col : Nat)
    (h1 : c ≠ '(') (h2 : c ≠ ')') (h3 : c ≠ '[') (h4 : c ≠ ']') (h5 : c ≠ ',')
    (h6 : c ≠ ':') (h7 : c ≠ '=') (h8 : c ≠ '!') (h9 : c ≠ '>') (h10 : c ≠ '<')
    (h11 : c ≠ '+') (h12 : c ≠ '*') (h13 : c ≠ '/') (h14 : c ≠ '-') (h15 : c ≠ '"')
    (hnum : isNumeric c = true) :
    nextTokenAux (c :: rest) pos line col = lexNumberAux rest (pos + 1) line col [c] := by
  simp [nextTokenAux, h1, h2, h3, h4, h5, h6, h7, h8, h9, h10, h11, h12, h13, h14, h15, hnum]

/-- Dispatch of `next_token` into the identifier loop. -/
theorem nextTokenAux_ident (c : Char) (rest : List Char) (pos line col : Nat)
    (h1 : c ≠ '(') (h2 : c ≠ ')') (h3 : c ≠ '[') (h4 : c ≠ ']') (h5 : c ≠ ',')
    (h6 : c ≠ ':') (h7 : c ≠ '=') (h8 : c ≠ '!') (h9 : c ≠ '>') (h10 : c ≠ '<')
    (h11 : c ≠ '+') (h12 : c ≠ '*') (h13 : c ≠ '/') (h14 : c ≠ '-') (h15 : c ≠ '"')
    (hnum : isNumeric c = false) (hcond : (isXidStart c || c = '_') = true) :
    nextTokenAux (c :: rest) pos line col = lexIdentifierAux rest (pos + 1) line col [c] := by
  simp [nextTokenAux, h1, h2, h3, h4, h5, h6, h7, h8, h9, h10, h11, h12, h13, h14, h15, hnum, hcond]

/-- Dispatch of `next_token` through the whitespace skip. -/
theorem nextTokenAux_ws (c : Char) (rest : List Char) (pos line col : Nat)
    (h1 : c ≠ '(') (h2 : c ≠ ')') (h3 : c ≠ '[') (h4 : c ≠ ']') (h5 : c ≠ ',')
    (h6 : c ≠ ':') (h7 : c ≠ '=') (h8 : c ≠ '!') (h9 : c ≠ '>') (h10 : c ≠ '<')
    (h11 : c ≠ '+') (h12 : c ≠ '*') (h13 : c ≠ '/') (h14 : c ≠ '-') (h15 : c ≠ '"')
    (hnum : isNumeric c = false) (hx1 : isXidStart c = false) (hx2 : c ≠ '_')
    (hnl : c ≠ '\n') (hws : c.isWhitespace = true) :
    nextTokenAux (c :: rest) pos line col = nextTokenAux rest (pos + 1) line col := by
  simp [nextTokenAux, h1, h2, h3, h4, h5, h6, h7, h8, h9, h10, h11, h12, h13, h14, h15, hnum, hx1, hx2, hnl, hws]

/-- Dispatch of `next_token` to the unknown-character error. -/
theorem nextTokenAux_unknown (c : Char) (rest : List Char) (pos line col : Nat)
    (h1 : c ≠ '(') (h2 : c ≠ ')') (h3 : c ≠ '[') (h4 : c ≠ ']') (h5 : c ≠ ',')
    (h6 : c ≠ ':') (h7 : c ≠ '=') (h8 : c ≠ '!') (h9 : c ≠ '>') (h10 : c ≠ '<')
    (h11 : c ≠ '+') (h12 : c ≠ '*') (h13 : c ≠ '/') (h14 : c ≠ '-') (h15 : c ≠ '"')
    (hnum : isNumeric c = false) (hx1 : isXidStart c = false) (hx2 : c ≠ '_')
    (hnl : c ≠ '\n') (hws : c.isWhitespace = false) :
    nextTokenAux (c :: rest) pos line col =
      emitToken rest (pos + 1) line col (.Error ("Unknown character ".push c)) 1 := by
  simp [nextTokenAux, h1, h2, h3, h4, h5, h6, h7, h8, h9, h10, h11, h12, h13, h14, h15, hnum, hx1, hx2, hnl, hws]

/-- Progress of `next_token`: except at an already-empty stream (where the
end-of-input token is produced), every call strictly shrinks the stream. -/
theorem nextTokenAux_progress (src : List Char) : ∀ (pos line col : Nat)
    (t : Spanned TokenKind) (l2 : Lexer),
    nextTokenAux src pos line col = some (t, l2) →
    (src = [] ∧ t.1 = .EoF ∧ l2.source = []) ∨ l2.source.length < src.length := by
  have hstep : ∀ (c : Char) (rest : List Char), rest.length < (c :: rest).length := by
    intro c rest
    simp
  induction src with
  | nil =>
      intro pos line col t l2 h
      obtain ⟨rfl, rfl⟩ := emitToken_inv _ _ _ _ _ _ _ _ h
      exact Or.inl ⟨rfl, rfl, rfl⟩
  | cons c rest ih =>
      intro pos line col t l2 h
      by_cases h1 : c = '('
      · subst h1
        rw [show nextTokenAux ('(' :: rest) pos line col =
            emitToken rest (pos + 1) line col .OpenParen 1 from rfl] at h
        obtain ⟨-, rfl⟩ := emitToken_inv _ _ _ _ _ _ _ _ h
        exact Or.inr (hstep '(' rest)
      by_cases h2 : c = ')'
      · subst h2
        rw [show nextTokenAux (')' :: rest) pos line col =
            emitToken rest (pos + 1) line col .CloseParen 1 from rfl] at h
        obtain ⟨-, rfl⟩ := emitToken_inv _ _ _ _ _ _ _ _ h
        exact Or.inr (hstep ')' rest)
      by_cases h3 : c = '['
      · subst h3
        rw [show nextTokenAux ('[' :: rest) pos line col =
            emitToken rest (pos + 1) line col .OpenBracket 1 from rfl] at h
        obtain ⟨-, rfl⟩ := emitToken_inv _ _ _ _ _ _ _ _ h
        exact Or.inr (hstep '[' rest)
      by_cases h4 : c = ']'
      · subst h4
        rw [show nextTokenAux (']' :: rest) pos line col =
            emitToken rest (pos + 1) line col .CloseBracket 1 from rfl] at h
        obtain ⟨-, rfl⟩ := emitToken_inv _ _ _ _ _ _ _ _ h
        exact Or.inr (hstep ']' rest)
      by_cases h5 : c = ','
      · subst h5
        rw [show nextTokenAux (',' :: rest) pos line col =
            emitToken rest (pos + 1) line col .Comma 1 from rfl] at h
        obtain ⟨-, rfl⟩ := emitToken_inv _ _ _ _ _ _ _ _ h
        exact Or.inr (hstep ',' rest)
      by_cases h6 : c = ':'
      · subst h6
        rw [show nextTokenAux (':' :: rest) pos line col =
            emitToken rest (pos + 1) line col .Colon 1 from rfl] at h
        obtain ⟨-, rfl⟩ := emitToken_inv _ _ _ _ _ _ _ _ h
        exact Or.inr (hstep ':' rest)
      by_cases h7 : c = '='
      · subst h7
        rw [show nextTokenAux ('=' :: rest) pos line col =
            (if (consumeChar '=' rest).1 then
              emitToken (consumeChar '=' rest).2 (pos + 2) line col .EqualEqual 2
            else emitToken (consumeChar '=' rest).2 (pos + 1) line col .Equal 1)
            from rfl] at h
        split at h <;>
          · obtain ⟨-, rfl⟩ := emitToken_inv _ _ _ _ _ _ _ _ h
            exact Or.inr (lt_of_le_of_lt (consumeChar_le _ _) (hstep '=' rest))
      by_cases h8 : c = '!'
      · subst h8
        rw [show nextTokenAux ('!' :: rest) pos line col =
            (if (consumeChar '=' rest).1 then
              emitToken (consumeChar '=' rest).2 (pos + 2) line col .BangEqual 2
            else emitToken (consumeChar '=' rest).2 (pos + 1) line col .Bang 1)
            from rfl] at h
        split at h <;>
          · obtain ⟨-, rfl⟩ := emitToken_inv _ _ _ _ _ _ _ _ h
            exact Or.inr (lt_of_le_of_lt (consumeChar_le _ _) (hstep '!' rest))
      by_cases h9 : c = '>'
      · subst h9
        rw [show nextTokenAux ('>' :: rest) pos line col =
            (if (consumeChar '=' rest).1 then
              emitToken (consumeChar '=' rest).2 (pos + 2) line col .GreaterEqual 2
            else emitToken (consumeChar '=' rest).2 (pos + 1) line col .Greater 1)
            from rfl] at h
        split at h <;>
          · obtain ⟨-, rfl⟩ := emitToken_inv _ _ _ _ _ _ _ _ h
            exact Or.inr (lt_of_le_of_lt (consumeChar_le _ _) (hstep '>' rest))
      by_cases h10 : c = '<'
      · subst h10
        rw [show nextTokenAux ('<' :: rest) pos line col =
            (if (consumeChar '=' rest).1 then
              emitToken (consumeChar '=' rest).2 (pos + 2) line col .LessEqual 2
            else emitToken (consumeChar '=' rest).2 (pos + 1) line col .Less 1)
            from rfl] at h
        split at h <;>
          · obtain ⟨-, rfl⟩ := emitToken_inv _ _ _ _ _ _ _ _ h
            exact Or.inr (lt_of_le_of_lt (consumeChar_le _ _) (hstep '<' rest))
      by_cases h11 : c = '+'
      · subst h11
        rw [show nextTokenAux ('+' :: rest) pos line col =
            emitToken rest (pos + 1) line col .Plus 1 from rfl] at h
        obtain ⟨-, rfl⟩ := emitToken_inv _ _ _ _ _ _ _ _ h
        exact Or.inr (hstep '+' rest)
      by_cases h12 : c = '*'
      · subst h12
        rw [show nextTokenAux ('*' :: rest) pos line col =
            emitToken rest (pos + 1) line col .Star 1 from rfl] at h
        obtain ⟨-, rfl⟩ := emitToken_inv _ _ _ _ _ _ _ _ h
        exact Or.inr (hstep '*' rest)
      by_cases h13 : c = '/'
      · subst h13
        rw [show nextTokenAux ('/' :: rest) pos line col =
            emitToken rest (pos + 1) line col .Slash 1 from rfl] at h
        obtain ⟨-, rfl⟩ := emitToken_inv _ _ _ _ _ _ _ _ h
        exact Or.inr (hstep '/' rest)
      by_cases h14 : c = '-'
      · subst h14
        rw [show nextTokenAux ('-' :: rest) pos line col =
            (if (consumeChar '>' rest).1 then
              emitToken (consumeChar '>' rest).2 (pos + 2) line col .Arrow 2
            else emitToken (consumeChar '>' rest).2 (pos + 1) line col .Minus 1)
            from rfl] at h
        split at h <;>
          · obtain ⟨-, rfl⟩ := emitToken_inv _ _ _ _ _ _ _ _ h
            exact Or.inr (lt_of_le_of_lt (consumeChar_le _ _) (hstep '-' rest))
      by_cases h15 : c = '"'
      · subst h15
        rw [show nextTokenAux ('"' :: rest) pos line col =
            lexStringAux rest (pos + 1) line col [] from rfl] at h
        exact Or.inr (lt_of_le_of_lt (lexStringAux_src_le _ _ _ _ _ _ _ h) (hstep '"' rest))
      by_cases hnum : isNumeric c = true
      · rw [nextTokenAux_num c rest pos line col h1 h2 h3 h4 h5 h6 h7 h8 h9 h10 h11 h12 h13
          h14 h15 hnum] at h
        exact Or.inr (lt_of_le_of_lt (lexNumberAux_src_le _ _ _ _ _ _ _ h) (hstep c rest))
      have hnumf : isNumeric c = false := by
        rcases hn : isNumeric c with _ | _
        · rfl
        · exact absurd hn hnum
      by_cases hxid : (isXidStart c || c = '_') = true
      · rw [nextTokenAux_ident c rest pos line col h1 h2 h3 h4 h5 h6 h7 h8 h9 h10 h11 h12 h13
          h14 h15 hnumf hxid] at h
        exact Or.inr (lt_of_le_of_lt (lexIdentifierAux_src_le _ _ _ _ _ _ _ h) (hstep c rest))
      have hx1 : isXidStart c = false := by
        rcases hx : isXidStart c with _ | _
        · rfl
        · exact absurd (by simp [hx]) hxid
      have hx2 : c ≠ '_' := fun hc => hxid (by simp [hc])
      have hnext : ∀ pos2 line2 col2, nextTokenAux rest pos2 line2 col2 = some (t, l2) →
          l2.source.length < (c :: rest).length := by
        intro pos2 line2 col2 hh
        rcases ih _ _ _ _ _ hh with ⟨hrest, -, hsrc⟩ | hlt
        · rw [hsrc, hrest]
          simp
        · exact lt_trans hlt (hstep c rest)
      by_cases hnl : c = '\n'
      · subst hnl
        rw [show nextTokenAux ('\n' :: rest) pos line col =
            nextTokenAux rest (pos + 1) (line + 1) 0 from rfl] at h
        exact Or.inr (hnext _ _ _ h)
      by_cases hws : c.isWhitespace = true
      · rw [nextTokenAux_ws c rest pos line col h1 h2 h3 h4 h5 h6 h7 h8 h9 h10 h11 h12 h13
          h14 h15 hnumf hx1 hx2 hnl hws] at h
        exact Or.inr (hnext _ _ _ h)
      have hwsf : c.isWhitespace = false := by
        rcases hw : c.isWhitespace with _ | _
        · rfl
        · exact absurd hw hws
      rw [nextTokenAux_unknown c rest pos line col h1 h2 h3 h4 h5 h6 h7 h8 h9 h10 h11 h12 h13
        h14 h15 hnumf hx1 hx2 hnl hwsf] at h
      obtain ⟨-, rfl⟩ := emitToken_inv _ _ _ _ _ _ _ _ h
      exact Or.inr (hstep c rest)

/-- Inversion of `Parser::advance`: either the buffered token is popped,
or one token is pulled from the lexer. -/
theorem advance_inv (p : Parser) (t : Spanned TokenKind) (p2 : Parser)
    (h : p.advance = some (t, p2)) :
    (p.peeked = some t ∧ p2 = { p with peeked := none, currentTokenSpan := t.2 }) ∨
    (p.peeked = none ∧ p2.peeked = none ∧ p.lexer.nextToken = some (t, p2.lexer)) := by
  cases hp : p.peeked with
  | some t0 =>
      simp only [Parser.advance, hp, Option.some.injEq, Prod.mk.injEq] at h
      obtain ⟨rfl, rfl⟩ := h
      exact Or.inl ⟨rfl, rfl⟩
  | none =>
      simp only [Parser.advance, hp] at h
      cases hn : p.lexer.nextToken with
      | none => rw [hn] at h; simp at h
      | some v =>
          obtain ⟨tn, lx⟩ := v
          rw [hn] at h
          simp only [Option.map_some', Option.some.injEq, Prod.mk.injEq] at h
          obtain ⟨rfl, rfl⟩ := h
          exact Or.inr ⟨rfl, rfl, rfl⟩

/-- One non-final step of the parser-level token stream. -/
theorem tokenListFuel_step (fuel : Nat) (p q : Parser) (t : Spanned TokenKind)
    (h : p.advance = some (t, q)) (hne : t.1 ≠ .EoF) :
    Parser.tokenListFuel (fuel + 1) p = (Parser.tokenListFuel fuel q).map (t :: ·) := by
  simp [Parser.tokenListFuel, h, hne]

/-- The final step of the parser-level token stream. -/
theorem tokenListFuel_eof (fuel : Nat) (p q : Parser) (t : Spanned TokenKind)
    (h : p.advance = some (t, q)) (he : t.1 = .EoF) :
    Parser.tokenListFuel (fuel + 1) p = some [t] := by
  simp [Parser.tokenListFuel, h, he]

/-- Success of the token stream is monotone in fuel. -/
theorem tokenListFuel_mono (f : Nat) : ∀ (p : Parser) (ts : List (Spanned TokenKind)),
    Parser.tokenListFuel f p = some ts → Parser.tokenListFuel (f + 1) p = some ts := by
  induction f with
  | zero => intro p ts h; simp [Parser.tokenListFuel] at h
  | succ f ih =>
      intro p ts h
      cases ha : p.advance with
      | none => simp [Parser.tokenListFuel, ha] at h
      | some v =>
          obtain ⟨t, q⟩ := v
          by_cases he : t.1 = .EoF
          · rw [tokenListFuel_eof f p q t ha he] at h
            rw [tokenListFuel_eof (f + 1) p q t ha he]
            exact h
          · rw [tokenListFuel_step f p q t ha he] at h
            rw [tokenListFuel_step (f + 1) p q t ha he]
            cases htl : Parser.tokenListFuel f q with
            | none => rw [htl] at h; simp at h
            | some ts2 =>
                rw [ih q ts2 htl]
                rw [htl] at h
                exact h

/-- Success of the token stream is monotone in fuel, general form. -/
theorem tokenListFuel_mono_le (f g : Nat) (hfg : f ≤ g) (p : Parser)
    (ts : List (Spanned TokenKind)) (h : Parser.tokenListFuel f p = some ts) :
    Parser.tokenListFuel g p = some ts := by
  obtain ⟨k, rfl⟩ := Nat.exists_eq_add_of_le hfg
  clear hfg
  induction k with
  | zero => exact h
  | succ k ih => exact tokenListFuel_mono (f + k) p ts ih

/-- A successful token stream already succeeds at the intrinsic fuel
bound derived from the remaining source and the lookahead buffer. -/
theorem tokenListFuel_nu (f : Nat) : ∀ (p : Parser) (ts : List (Spanned TokenKind)),
    Parser.tokenListFuel f p = some ts →
    Parser.tokenListFuel
      (p.lexer.source.length + (if p.peeked.isSome then 1 else 0) + 1) p = some ts := by
  induction f with
  | zero => intro p ts h; simp [Parser.tokenListFuel] at h
  | succ f ih =>
      intro p ts h
      cases ha : p.advance with
      | none => simp [Parser.tokenListFuel, ha] at h
      | some v =>
          obtain ⟨t, q⟩ := v
          by_cases he : t.1 = .EoF
          · rw [tokenListFuel_eof
              (p.lexer.source.length + (if p.peeked.isSome then 1 else 0)) p q t ha he]
            rw [tokenListFuel_eof f p q t ha he] at h
            exact h
          · rw [tokenListFuel_step f p q t ha he] at h
            cases htl : Parser.tokenListFuel f q with
            | none => rw [htl] at h; simp at h
            | some ts2 =>
                rw [htl] at h
                have hq := ih q ts2 htl
                have hb : q.lexer.source.length + (if q.peeked.isSome then 1 else 0) + 1 ≤
                    p.lexer.source.length + (if p.peeked.isSome then 1 else 0) := by
                  rcases advance_inv p t q ha with ⟨hp, rfl⟩ | ⟨hp, hq2, hn⟩
                  · simp [hp]
                  · simp only [Lexer.nextToken] at hn
                    rcases nextTokenAux_progress p.lexer.source p.lexer.position
                        p.lexer.line p.lexer.column t q.lexer hn with ⟨-, hteof, -⟩ | hlt
                    · exact absurd hteof he
                    · simp only [hp, hq2, Option.isSome_none]
                      omega
                have hq2 := tokenListFuel_mono_le _ _ hb q ts2 hq
                rw [tokenListFuel_step
                  (p.lexer.source.length + (if p.peeked.isSome then 1 else 0)) p q t ha he]
                rw [hq2]
                exact h

/-- A token stream obtained at any fuel is the token stream. -/
theorem tokenList_of_fuel (f : Nat) (p : Parser) (ts : List (Spanned TokenKind))
    (h : Parser.tokenListFuel f p = some ts) : p.tokenList = some ts := by
  have h1 := tokenListFuel_nu f p ts h
  have hle : p.lexer.source.length + (if p.peeked.isSome then 1 else 0) + 1 ≤
      p.lexer.source.length + 2 := by
    split <;> omega
  exact tokenListFuel_mono_le _ _ hle p ts h1

/-- Filling the lookahead buffer does not change the token stream. -/
theorem tokenListFuel_peek (f : Nat) (p : Parser) (t : Spanned TokenKind) (p1 : Parser)
    (h : p.peek = some (t, p1)) :
    Parser.tokenListFuel f p = Parser.tokenListFuel f p1 := by
  cases f with
  | zero => rfl
  | succ f =>
      obtain ⟨hb, hpk, hadv1, hadv0⟩ := peek_spec p t p1 h
      simp only [Parser.tokenListFuel, hadv0, hadv1]

/-- Filling the lookahead buffer does not change the token stream
(wrapper level). -/
theorem tokenList_peek (p : Parser) (t : Spanned TokenKind) (p1 : Parser)
    (h : p.peek = some (t, p1)) (ts : List (Spanned TokenKind))
    (hts : p.tokenList = some ts) : p1.tokenList = some ts := by
  have h1 : Parser.tokenListFuel (p.lexer.source.length + 2) p1 = some ts := by
    rw [← tokenListFuel_peek _ p t p1 h]
    exact hts
  exact tokenList_of_fuel _ p1 ts h1

/-- Unfolding one non-final token of the token stream. -/
theorem tokenList_cons (p q : Parser) (t : Spanned TokenKind)
    (hadv : p.advance = some (t, q)) (hne : t.1 ≠ .EoF)
    (ts : List (Spanned TokenKind)) (h : p.tokenList = some ts) :
    ∃ ts2, ts = t :: ts2 ∧ q.tokenList = some ts2 := by
  have h2 : Parser.tokenListFuel (p.lexer.source.length + 1 + 1) p = some ts := h
  rw [tokenListFuel_step _ p q t hadv hne] at h2
  cases htl : Parser.tokenListFuel (p.lexer.source.length + 1) q with
  | none => rw [htl] at h2; simp at h2
  | some ts2 =>
      rw [htl] at h2
      simp only [Option.map_some', Option.some.injEq] at h2
      exact ⟨ts2, h2.symm, tokenList_of_fuel _ q ts2 htl⟩

/-- The token stream after an end-of-input token is just that token. -/
theorem tokenList_eofShape (p q : Parser) (t : Spanned TokenKind)
    (hadv : p.advance = some (t, q)) (he : t.1 = .EoF)
    (ts : List (Spanned TokenKind)) (h : p.tokenList = some ts) : ts = [t] := by
  have h2 : Parser.tokenListFuel (p.lexer.source.length + 1 + 1) p = some ts := h
  rw [tokenListFuel_eof _ p q t hadv he] at h2
  simpa using h2.symm

/-- The synchronize loop (at any fuel) stops with a statement-starting
keyword or end-of-input buffered, and the surviving token stream is the
original one with exactly the leading non-sync tokens discarded. -/
theorem syncFuel_spec (fuel : Nat) : ∀ (p p' : Parser),
    Parser.synchronizeFuel fuel p = some p' →
    (∃ t, p'.peeked = some t ∧ (isSyncToken t.1 = true ∨ t.1 = .EoF) ∧
      p'.peek = some (t, p')) ∧
    ∀ ts, p.tokenList = some ts →
      p'.tokenList = some (ts.dropWhile fun tk => !(isSyncToken tk.1 || tk.1 == .EoF)) := by
  induction fuel with
  | zero => intro p p' h; simp [Parser.synchronizeFuel] at h
  | succ fuel ih =>
      intro p p' h
      simp only [Parser.synchronizeFuel] at h
      cases hpk : p.peek with
      | none => rw [hpk] at h; simp at h
      | some v =>
          obtain ⟨t, p1⟩ := v
          rw [hpk] at h
          simp only [Option.some_bind] at h
          obtain ⟨hb, hpk1, hadv1, hadv0⟩ := peek_spec p t p1 hpk
          by_cases he : t.1 = .EoF
          · rw [if_pos he] at h
            obtain rfl := Option.some.inj h
            refine ⟨⟨t, hb, Or.inr he, hpk1⟩, ?_⟩
            intro ts hts
            obtain rfl := tokenList_eofShape p _ t hadv0 he ts hts
            have h1 : Parser.tokenListFuel (p1.lexer.source.length + 1 + 1) p1 =
                some [t] := tokenListFuel_eof _ p1 _ t hadv1 he
            have h2 : p1.tokenList = some [t] := h1
            rw [h2]
            simp [List.dropWhile, he]
          · rw [if_neg he] at h
            by_cases hs : isSyncToken t.1 = true
            · rw [if_pos hs] at h
              obtain rfl := Option.some.inj h
              refine ⟨⟨t, hb, Or.inl hs, hpk1⟩, ?_⟩
              intro ts hts
              rw [tokenList_peek p t p1 hpk ts hts]
              obtain ⟨ts2, rfl, -⟩ := tokenList_cons p _ t hadv0 he ts hts
              simp [List.dropWhile, hs]
            · rw [if_neg hs] at h
              rw [hadv1] at h
              simp only [Option.some_bind] at h
              obtain ⟨hex, hstream⟩ := ih _ p' h
              refine ⟨hex, ?_⟩
              intro ts hts
              obtain ⟨ts2, rfl, hq⟩ := tokenList_cons p _ t hadv0 he ts hts
              rw [hstream ts2 hq]
              have he2 : (t.1 == TokenKind.EoF) = false := by simp [he]
              simp [List.dropWhile, hs, he2]

/-- Claim C6: after `synchronize` returns, the parser's buffered next token
is one of the statement-starting keywords `fun`, `let`, `return`, `if`,
`for`, `while` or the end-of-input token (and peeking returns it without
further state change), and the remaining token stream is exactly the
original token stream with every token before the first such token
discarded — nothing at or after it is consumed. -/
theorem claim_C6_sync (p p' : Parser) (h : p.synchronize = some p') :
    (∃ t, p'.peeked = some t ∧ (isSyncToken t.1 = true ∨ t.1 = .EoF) ∧
      p'.peek = some (t, p')) ∧
    ∀ ts, p.tokenList = some ts →
      p'.tokenList = some (ts.dropWhile fun tk => !(isSyncToken tk.1 || tk.1 == .EoF)) :=
  syncFuel_spec _ p p' h

/-- Witness for claim C6 on the concrete source `1 let`. -/
theorem claim_C6_sync_witness :
    ∃ p', (Parser.new "1 let" "t").synchronize = some p' ∧
      ((∃ t, p'.peeked = some t ∧ (isSyncToken t.1 = true ∨ t.1 = .EoF) ∧
        p'.peek = some (t, p')) ∧
      ∀ ts, (Parser.new "1 let" "t").tokenList = some ts →
        p'.tokenList =
          some (ts.dropWhile fun tk => !(isSyncToken tk.1 || tk.1 == .EoF))) := by
  refine ⟨Parser.mk "1 let" (Lexer.mk [] 5 1 0) "t" (Span.mk 2 5)
    (some (.Let, ⟨2, 5⟩)), ?_, ?_⟩
  · decide
  · exact claim_C6_sync _ _ (by decide)
